import Mathlib

/-!
Verification of the med-regulatory document pipeline against its specification.

The development shallowly embeds the Python sources of
`backend/src/classifier/classifier.py`, `backend/src/classifier/router.py`,
`backend/src/crawler/crawler.py`, `backend/src/crawler/router.py` and
`backend/src/process/proc.py`.  Python strings are modelled as `List Char`
(`Text`), machine integers as `Nat`/`Int`, fallible code as `Except String`,
and the LLM client as an arbitrary function from stage and prompt text to
`Except String Text` (it is an external collaborator with no schema
guarantee).  `json.loads` / `json.dumps` are modelled by an executable JSON
parser/renderer over a `Json` value type with integer numbers; string escape
sequences and floating-point numbers are outside the fragment the pipeline's
data exercises, and the parser conservatively rejects them.
-/

/-- Python strings, modelled as lists of characters. -/
abbrev Text := List Char

/-- Coerce a Lean string literal to `Text`. -/
def txt (s : String) : Text := s.toList

/-- The whitespace class of Python's `str.strip()` and the regex class `\s`
(ASCII fragment: space, tab, newline, carriage return, vertical tab,
form feed). -/
def isPyWs (c : Char) : Bool :=
  c = ' ' || c = '\t' || c = '\n' || c = '\r' || c = '\x0b' || c = '\x0c'

/-- Python `str.strip()`: drop leading and trailing whitespace. -/
def pyStrip (s : Text) : Text :=
  ((s.dropWhile isPyWs).reverse.dropWhile isPyWs).reverse

/-- Worker for `splitOnSep`: the separator is `c0 :: sep'`.  Fuel-indexed
so that evaluation is definitional; called with fuel equal to the text's
length, which by construction never runs out (each step consumes at least
one character). -/
def splitGoF (c0 : Char) (sep' : Text) : Nat → Text → List Text
  | _, [] => [[]]
  | 0, s => [s]
  | fuel + 1, c :: rest =>
    if (c0 :: sep').isPrefixOf (c :: rest) then
      [] :: splitGoF c0 sep' fuel (rest.drop sep'.length)
    else
      match splitGoF c0 sep' fuel rest with
      | [] => [[c]]
      | t :: ts => (c :: t) :: ts

/-- Python `str.split(sep)`: cut the string at every non-overlapping,
leftmost occurrence of the separator. -/
def splitOnSep (sep : Text) (s : Text) : List Text :=
  match sep with
  | [] => [s]
  | c0 :: sep' => splitGoF c0 sep' s.length s

/-- JSON values (Python `json` module).  Numbers restricted to integers. -/
inductive Json where
  | null : Json
  | bool : Bool → Json
  | num : Int → Json
  | str : Text → Json
  | arr : List Json → Json
  | obj : List (Text × Json) → Json
deriving Repr

/-- `json.dumps` of a string (no escaping needed in the fragment used). -/
def renderStr (s : Text) : Text := '"' :: s ++ ['"']

mutual

/-- `json.dumps` with the default separators `", "` and `": "`. -/
def jsonRender : Json → Text
  | .null => txt "null"
  | .bool true => txt "true"
  | .bool false => txt "false"
  | .num n => txt n.repr
  | .str s => renderStr s
  | .arr xs => '[' :: (jsonRenderItems xs ++ [']'])
  | .obj fs => '{' :: (jsonRenderFields fs ++ ['}'])

def jsonRenderItems : List Json → Text
  | [] => []
  | [x] => jsonRender x
  | x :: y :: rest => jsonRender x ++ txt ", " ++ jsonRenderItems (y :: rest)

def jsonRenderFields : List (Text × Json) → Text
  | [] => []
  | [(k, v)] => renderStr k ++ txt ": " ++ jsonRender v
  | (k, v) :: f :: rest =>
      renderStr k ++ txt ": " ++ jsonRender v ++ txt ", " ++ jsonRenderFields (f :: rest)

end

/-- JSON whitespace accepted between tokens by `json.loads`. -/
def isJsonWs (c : Char) : Bool :=
  c = ' ' || c = '\t' || c = '\n' || c = '\r'

/-- Skip JSON whitespace. -/
def skipWs (s : Text) : Text := s.dropWhile isJsonWs

/-- Parse the body of a JSON string literal after the opening quote.
Escape sequences are rejected (unused by the pipeline's data). -/
def parseStrBody (s : Text) : Option (Text × Text) :=
  let content := s.takeWhile (· ≠ '"')
  if content.any (· = '\\') then none
  else
    match s.drop content.length with
    | '"' :: rest => some (content, rest)
    | _ => none

/-- Value of a string of decimal digits. -/
def digitsToNat (ds : Text) : Nat :=
  ds.foldl (fun acc c => acc * 10 + (c.toNat - '0'.toNat)) 0

/-- Reject fractional/exponent continuations of a numeric literal. -/
def numTail (n : Int) (rest : Text) : Option (Int × Text) :=
  match rest with
  | '.' :: _ => none
  | 'e' :: _ => none
  | 'E' :: _ => none
  | _ => some (n, rest)

/-- Parse a JSON integer literal. -/
def parseNum (s : Text) : Option (Int × Text) :=
  match s with
  | '-' :: rest =>
    let ds := rest.takeWhile Char.isDigit
    if ds = [] then none
    else numTail (-(Int.ofNat (digitsToNat ds))) (rest.drop ds.length)
  | _ =>
    let ds := s.takeWhile Char.isDigit
    if ds = [] then none
    else numTail (Int.ofNat (digitsToNat ds)) (s.drop ds.length)

mutual

/-- Recursive-descent JSON value parser (fuel-indexed core of `json.loads`). -/
def parseVal : Nat → Text → Option (Json × Text)
  | 0, _ => none
  | fuel + 1, s =>
    match s with
    | '{' :: rest => (parseObjItems fuel (skipWs rest)).map (fun p => (Json.obj p.1, p.2))
    | '[' :: rest => (parseArrItems fuel (skipWs rest)).map (fun p => (Json.arr p.1, p.2))
    | '"' :: rest => (parseStrBody rest).map (fun p => (Json.str p.1, p.2))
    | 't' :: 'r' :: 'u' :: 'e' :: rest => some (Json.bool true, rest)
    | 'f' :: 'a' :: 'l' :: 's' :: 'e' :: rest => some (Json.bool false, rest)
    | 'n' :: 'u' :: 'l' :: 'l' :: rest => some (Json.null, rest)
    | _ => (parseNum s).map (fun p => (Json.num p.1, p.2))

/-- Parse array items after `[` (leading whitespace already skipped). -/
def parseArrItems : Nat → Text → Option (List Json × Text)
  | 0, _ => none
  | fuel + 1, s =>
    match s with
    | ']' :: rest => some ([], rest)
    | _ => do
      let (v, r1) ← parseVal fuel s
      match skipWs r1 with
      | ',' :: r2 => do
        let (vs, r3) ← parseArrItems fuel (skipWs r2)
        pure (v :: vs, r3)
      | ']' :: r2 => pure ([v], r2)
      | _ => none

/-- Parse object fields after `{` (leading whitespace already skipped). -/
def parseObjItems : Nat → Text → Option (List (Text × Json) × Text)
  | 0, _ => none
  | fuel + 1, s =>
    match s with
    | '}' :: rest => some ([], rest)
    | '"' :: rest => do
      let (k, r1) ← parseStrBody rest
      match skipWs r1 with
      | ':' :: r2 => do
        let (v, r3) ← parseVal fuel (skipWs r2)
        match skipWs r3 with
        | ',' :: r4 => do
          let (fs, r5) ← parseObjItems fuel (skipWs r4)
          pure ((k, v) :: fs, r5)
        | '}' :: r4 => pure ([(k, v)], r4)
        | _ => none
      | _ => none
    | _ => none

end

/-- `json.loads`: parse a complete document, rejecting trailing data
("Extra data").  `none` models a raised `JSONDecodeError`. -/
def json_loads (s : Text) : Option Json :=
  match parseVal (2 * s.length + 8) (skipWs s) with
  | some (v, rest) => if skipWs rest = [] then some v else none
  | none => none

/-! ## `classifier/classifier.py` — JSON normalization and the stage pipeline -/

/-- Python `str.find(c)`: index of the first occurrence, `none` for `-1`. -/
def pyFindChar (c : Char) (s : Text) : Option Nat := s.findIdx? (· = c)

/-- Python `str.rfind(c)`: index of the last occurrence, `none` for `-1`. -/
def pyRfindChar (c : Char) (s : Text) : Option Nat :=
  (s.reverse.findIdx? (· = c)).map (fun i => s.length - 1 - i)

/-- Does `r` match the regex fragment `\s*\}\s*$` entirely?  (`$` may also
match before a final newline, but any such remainder is itself all
whitespace, so this characterization coincides with `re` semantics.) -/
def tailWsBraceWs (r : Text) : Bool :=
  match r.dropWhile isPyWs with
  | '}' :: rest => rest.all isPyWs
  | _ => false

/-- `re.sub(r"\}\s*\}\s*$", "}", s)`: replace the leftmost match — a `}`
whose remainder matches `\s*\}\s*$` — by a single `}`.  Returns `none`
when no position matches. -/
def collapseGo : Text → Option Text
  | [] => none
  | c :: rest =>
    if c = '}' && tailWsBraceWs rest then some ['}']
    else (collapseGo rest).map (fun t => c :: t)

/-- The complete `re.sub` call of `normalize_json` (identity when the
pattern does not occur). -/
def reSubTrailingBraces (s : Text) : Text := (collapseGo s).getD s

/-- `normalize_json` from `classifier/classifier.py`: slice from the first
`{` to the last `}` and collapse a duplicated trailing `}}` to `}`.
When no `{` exists the raised `ValueError` is caught and the raw string is
returned; when no `}` exists, `rfind` gives `-1`, so the slice end is `0`
and the candidate is empty. -/
def normalize_json (raw : Text) : Text :=
  match pyFindChar '{' raw with
  | none => raw
  | some start =>
    let stop : Nat :=
      match pyRfindChar '}' raw with
      | some j => j + 1
      | none => 0
    reSubTrailingBraces ((raw.take stop).drop start)

/-- Last-wins lookup in a parsed JSON object (Python dicts keep one value
per key; `json.loads` keeps the last duplicate). -/
def dictGetLast (fs : List (Text × Json)) (k : Text) : Option Json :=
  (fs.reverse.find? (fun p => p.1 = k)).map (fun p => p.2)

/-- Python `dict.get(k, d)`. -/
def dictGetD (fs : List (Text × Json)) (k : Text) (d : Json) : Json :=
  (dictGetLast fs k).getD d

/-- The three LLM calls of the per-document pipeline. -/
inductive LlmStage where
  | extract
  | classifyCustom
  | keywords
deriving DecidableEq

/-- The LLM client: maps a stage and the `text` fed into that stage's
prompt template to a reply, or to a raised exception (`Except.error`).
Prompt templates and keyword configuration are absorbed into the stage
tag — the claims quantify over arbitrary client behaviour. -/
abbrev Llm := LlmStage → Text → Except String Text

/-- Shared body of the three stage `try` blocks:
`json.loads(normalize_json(raw))` followed by `data.get(key, [])`.
A parse failure, or a parsed value that is not an object (so that
`data.get` raises `AttributeError`), is caught and yields `failVal`. -/
def stageParse (failVal : Json) (key : Text) (raw : Text) : Json :=
  match json_loads (normalize_json raw) with
  | some (Json.obj fs) => dictGetD fs key (Json.arr [])
  | _ => failVal

/-- `DocumentClassifier._extract_document`: the failed stage yields `[]`. -/
def extract_document (llm : Llm) (maxDocSize : Nat) (text : Text) :
    Except String Json := do
  let raw ← llm .extract (text.take maxDocSize)
  pure (stageParse (Json.arr []) (txt "requirements") raw)

/-- `DocumentClassifier._classify_custom`: note that the `except` branch
returns `{}` — an empty dict, not a list. -/
def classify_custom (llm : Llm) (maxDocSize : Nat) (text : Text) :
    Except String Json := do
  let raw ← llm .classifyCustom (text.take maxDocSize)
  pure (stageParse (Json.obj []) (txt "requirements") raw)

/-- `DocumentClassifier._extract_keywords`: the failed stage yields `[]`. -/
def extract_keywords (llm : Llm) (maxDocSize : Nat) (text : Text) :
    Except String Json := do
  let raw ← llm .keywords (text.take maxDocSize)
  pure (stageParse (Json.arr []) (txt "keywords") raw)

/-- Python `str()` on a parsed JSON value (exact on scalars; container
`repr` approximated by the JSON rendering — never reached on the paths
the theorems traverse). -/
def pyStrOfJson : Json → Text
  | .str s => s
  | .num n => txt n.repr
  | .bool true => txt "True"
  | .bool false => txt "False"
  | .null => txt "None"
  | .arr xs => jsonRender (.arr xs)
  | .obj fs => jsonRender (.obj fs)

/-- Python subscription `r[k]`: `KeyError` on a missing dict key,
`TypeError` on non-dict values. -/
def pyGetItem (v : Json) (k : Text) : Except String Json :=
  match v with
  | .obj fs =>
    match dictGetLast fs k with
    | some x => .ok x
    | none => .error "KeyError"
  | _ => .error "TypeError"

/-- Python iteration: lists yield elements, dicts their keys, strings
their characters; other values raise `TypeError`. -/
def pyIterate : Json → Except String (List Json)
  | .arr xs => .ok xs
  | .obj fs => .ok (fs.map (fun p => Json.str p.1))
  | .str s => .ok (s.map (fun c => Json.str [c]))
  | _ => .error "TypeError"

/-- One line of `req_list_to_str`:
`f"{r['id']}. [{r['subject']}] [{r['type']}] {r['text']}"`. -/
def formatReq (r : Json) : Except String Text := do
  let i ← pyGetItem r (txt "id")
  let subj ← pyGetItem r (txt "subject")
  let ty ← pyGetItem r (txt "type")
  let tx ← pyGetItem r (txt "text")
  pure (pyStrOfJson i ++ txt ". [" ++ pyStrOfJson subj ++ txt "] [" ++
        pyStrOfJson ty ++ txt "] " ++ pyStrOfJson tx)

/-- `req_list_to_str` from `classifier/classifier.py` (the trailing
`or ""` is the identity on strings: an empty join is already `""`). -/
def req_list_to_str (reqs : Json) : Except String Text := do
  let items ← pyIterate reqs
  let lines ← items.mapM formatReq
  pure (List.intercalate (txt "\n") lines)

/-- The value returned by `DocumentClassifier.classify_document` (the
`timestamp` is taken as a parameter; `requirements` and `keywords` hold
whatever the stages produced, which is how the `{}`-on-failure slip of
`_classify_custom` can surface). -/
structure ClassifyOutput where
  timestamp : Text
  requirements : Json
  keywords : Json
deriving Repr

/-- `DocumentClassifier.classify_document`: extract, then feed the
formatted requirement list (or, when it is empty, the document text)
to the classify and keyword stages.  Exceptions raised by the LLM client
or by `req_list_to_str` propagate to the caller. -/
def classify_document (llm : Llm) (maxDocSize : Nat) (ts : Text)
    (document_text : Text) : Except String ClassifyOutput := do
  let reqs ← extract_document llm maxDocSize document_text
  let formatted ← req_list_to_str reqs
  let text_for_fw := if formatted = [] then document_text else formatted
  let requirements ← classify_custom llm maxDocSize text_for_fw
  let keywords ← extract_keywords llm maxDocSize text_for_fw
  pure ⟨ts, requirements, keywords⟩

/-- The dict persisted by the router:
`{"timestamp": ..., "requirements": ..., "keywords": ...}`. -/
def result_to_json (r : ClassifyOutput) : Json :=
  .obj [(txt "timestamp", .str r.timestamp),
        (txt "requirements", r.requirements),
        (txt "keywords", r.keywords)]

/-- Is a JSON value an array? -/
def jsonIsArr : Json → Bool
  | .arr _ => true
  | _ => false

/-- Is a JSON value the empty array? -/
def jsonIsEmptyArr : Json → Bool
  | .arr [] => true
  | _ => false

/-- Field of a serialized JSON object, after re-parsing. -/
def parsedField (s : Text) (k : Text) : Option Json :=
  match json_loads s with
  | some (Json.obj fs) => dictGetLast fs k
  | _ => none

/-! ## Claims C1, C2, C3, C10 — the classification stage pipeline -/

/-- An LLM client whose replies are never JSON (no braces at all). -/
def llmNonJson : Llm := fun _ _ => .ok (txt "the model refused to answer")

/-- An LLM client whose extract reply is not JSON but whose classify reply
is a well-formed requirements object. -/
def llmExtractFails : Llm := fun st _ =>
  match st with
  | .extract => .ok (txt "no reply")
  | .classifyCustom => .ok (txt "\x7b\"requirements\": [\"r1\"]\x7d")
  | .keywords => .ok (txt "\x7b\"keywords\": []\x7d")

/-- An LLM client that raises on the extract stage. -/
def llmExtractRaises : Llm := fun st _ =>
  match st with
  | .extract => .error "APIError"
  | _ => .ok (txt "")

/-- Shared computation: when the extract stage yields an empty requirements
list, `req_list_to_str` gives `""`, whose falsiness routes the original
document text into the classify and keyword stages. -/
theorem classify_document_fallback (llm : Llm) (ms : Nat) (ts doc : Text)
    (h : extract_document llm ms doc = .ok (Json.arr [])) :
    classify_document llm ms ts doc = (do
      let r ← classify_custom llm ms doc
      let k ← extract_keywords llm ms doc
      pure ⟨ts, r, k⟩) := by
  unfold classify_document
  rw [h]
  rfl

/-- C1: the claim says `result_json` always deserializes to an object whose
`requirements` field is an array even when an LLM stage fails.  The code
violates this: `_classify_custom`'s `except` branch returns `{}` (an empty
dict) although its own annotation promises `List[Dict[str, Any]]`, so a
classify-stage parse failure persists `"requirements": {}` — a JSON object,
not an array.  Evaluated here at the failing input `llmNonJson`. -/
theorem c1_classify_stage_failure_persists_empty_object :
    classify_document llmNonJson 3000 (txt "T") (txt "some document text") =
      .ok ⟨txt "T", Json.obj [], Json.arr []⟩ ∧
    parsedField (jsonRender (result_to_json ⟨txt "T", Json.obj [], Json.arr []⟩))
        (txt "requirements") = some (Json.obj []) ∧
    jsonIsArr (Json.obj []) = false :=
  ⟨rfl, rfl, rfl⟩

/-- C2 (counterexample): `normalize_json` applied to `'prefix{"a":1}}}'`
yields `'{"a":1}}'` — the `re.sub` collapses only the final duplicated
brace pair — and that string does not parse as JSON (trailing data), so
the claimed round-trip to `{"a": 1}` fails. -/
theorem c2_normalize_json_counterexample :
    normalize_json (txt "prefix\x7b\"a\":1\x7d\x7d\x7d") = txt "\x7b\"a\":1\x7d\x7d" ∧
    json_loads (normalize_json (txt "prefix\x7b\"a\":1\x7d\x7d\x7d")) = none :=
  ⟨by decide, rfl⟩

/-- C2 (amended): with a single duplicated trailing brace,
`normalize_json 'prefix{"a":1}}'` returns `'{"a":1}'`, which parses to the
object `{"a": 1}`; with the doubly duplicated `'prefix{"a":1}}}'` it
returns `'{"a":1}}'`, which does not parse. -/
theorem c2_normalize_json_amended :
    normalize_json (txt "prefix\x7b\"a\":1\x7d\x7d") = txt "\x7b\"a\":1\x7d" ∧
    json_loads (txt "\x7b\"a\":1\x7d") = some (Json.obj [(txt "a", Json.num 1)]) ∧
    normalize_json (txt "prefix\x7b\"a\":1\x7d\x7d\x7d") = txt "\x7b\"a\":1\x7d\x7d" ∧
    json_loads (txt "\x7b\"a\":1\x7d\x7d") = none :=
  ⟨by decide, rfl, by decide, rfl⟩

/-- C3 (counterexample): with a non-JSON extract reply the pipeline feeds
the original document text to the classify stage, whose successful reply
makes `requirements` the non-empty `["r1"]`, not the claimed `[]`; and an
extract-stage exception propagates out of `classify_document` instead of
being swallowed. -/
theorem c3_counterexample :
    classify_document llmExtractFails 3000 (txt "T") (txt "document body") =
      .ok ⟨txt "T", Json.arr [Json.str (txt "r1")], Json.arr []⟩ ∧
    jsonIsEmptyArr (Json.arr [Json.str (txt "r1")]) = false ∧
    classify_document llmExtractRaises 3000 (txt "T") (txt "document body") =
      .error "APIError" :=
  ⟨rfl, rfl, rfl⟩

/-- C3 (amended): if the LLM reply for the extract stage is returned but is
not parseable JSON, `classify_document` returns without raising whatever the
classify and keyword stages produce on the original document text (so
`requirements` is empty only if the classify stage also fails); if the LLM
client raises on the extract stage, the exception propagates to the caller
(the orchestrator catches it per document). -/
theorem c3_amended_graceful_extract_failure :
    (∀ (llm : Llm) (ms : Nat) (ts doc raw : Text),
        llm .extract (doc.take ms) = .ok raw →
        json_loads (normalize_json raw) = none →
        classify_document llm ms ts doc = (do
          let r ← classify_custom llm ms doc
          let k ← extract_keywords llm ms doc
          pure ⟨ts, r, k⟩)) ∧
    (∀ (llm : Llm) (ms : Nat) (ts doc : Text) (e : String),
        llm .extract (doc.take ms) = .error e →
        classify_document llm ms ts doc = .error e) := by
  constructor
  · intro llm ms ts doc raw hraw hparse
    apply classify_document_fallback
    unfold extract_document
    rw [hraw]
    show Except.ok (stageParse (Json.arr []) (txt "requirements") raw) = _
    unfold stageParse
    rw [hparse]
  · intro llm ms ts doc e hraw
    unfold classify_document extract_document
    rw [hraw]
    rfl

/-- C3 (witness): the amended theorem instantiated at the two concrete
clients `llmExtractFails` and `llmExtractRaises`. -/
theorem c3_amended_graceful_extract_failure_witness :
    (classify_document llmExtractFails 3000 (txt "ts") (txt "body") = (do
      let r ← classify_custom llmExtractFails 3000 (txt "body")
      let k ← extract_keywords llmExtractFails 3000 (txt "body")
      pure ⟨txt "ts", r, k⟩)) ∧
    classify_document llmExtractRaises 3000 (txt "ts") (txt "body") =
      .error "APIError" :=
  ⟨c3_amended_graceful_extract_failure.1 llmExtractFails 3000 (txt "ts")
      (txt "body") (txt "no reply") rfl rfl,
   c3_amended_graceful_extract_failure.2 llmExtractRaises 3000 (txt "ts")
      (txt "body") "APIError" rfl⟩

/-- C10: whenever the extract stage yields an empty requirements list
(including after malformed output), the classify and keyword stages are
invoked on the original document text (each stage truncates its input to
the prompt-size budget internally), not on the empty formatted string. -/
theorem c10_extract_empty_falls_back_to_document_text :
    ∀ (llm : Llm) (ms : Nat) (ts doc : Text),
      extract_document llm ms doc = .ok (Json.arr []) →
      classify_document llm ms ts doc = (do
        let r ← classify_custom llm ms doc
        let k ← extract_keywords llm ms doc
        pure ⟨ts, r, k⟩) :=
  fun llm ms ts doc h => classify_document_fallback llm ms ts doc h

/-- C10 (witness): instantiated at `llmNonJson`, whose extract reply is
unparseable, so the extract stage yields `[]`. -/
theorem c10_extract_empty_falls_back_witness :
    classify_document llmNonJson 3000 (txt "T") (txt "doc") = (do
      let r ← classify_custom llmNonJson 3000 (txt "doc")
      let k ← extract_keywords llmNonJson 3000 (txt "doc")
      pure ⟨txt "T", r, k⟩) :=
  c10_extract_empty_falls_back_to_document_text llmNonJson 3000 (txt "T")
    (txt "doc") rfl

/-! ## `process/proc.py` — enum normalization and greedy clustering -/

/-- Python's cleaning in `normalize_enum_input`:
`.lower().replace(" ", "").replace("-", "_")` — spaces are removed but
hyphens become underscores. -/
def cleanEnumStr (s : Text) : Text :=
  ((s.map Char.toLower).filter (fun c => c ≠ ' ')).map
    (fun c => if c = '-' then '_' else c)

/-- A Python `Enum` member: `.name` and `.value`. -/
structure EnumMember where
  name : Text
  value : Text
deriving DecidableEq, Repr

/-- `RoleEnum` from `db/models.py`, in definition order. -/
def RoleEnum : List EnumMember :=
  [⟨txt "dev_engineer", txt "Development Engineer"⟩,
   ⟨txt "security_architect", txt "Security Architect"⟩,
   ⟨txt "qa_engineer", txt "Quality Assurance"⟩,
   ⟨txt "regulatory_affairs", txt "Regulatory Affairs"⟩,
   ⟨txt "product_manager", txt "Product Manager"⟩,
   ⟨txt "ops_engineer", txt "Operations Engineer"⟩,
   ⟨txt "incident_responder", txt "Incident Response Specialist"⟩,
   ⟨txt "other", txt "Other"⟩,
   ⟨txt "unknown", txt "unknown"⟩]

/-- `enum_cls.unknown.value` (every embedded enum defines `unknown`). -/
def enumUnknownValue (enum : List EnumMember) : Text :=
  match enum.find? (fun m => m.name == txt "unknown") with
  | some m => m.value
  | none => []

/-- `normalize_enum_input` from `process/proc.py`: first member (in
definition order) whose cleaned name or cleaned value equals the cleaned
input wins; otherwise the `unknown` member's value. -/
def normalize_enum_input (input_value : Text) (enum : List EnumMember) : Text :=
  match enum.find? (fun m =>
      cleanEnumStr m.name == cleanEnumStr input_value ||
      cleanEnumStr m.value == cleanEnumStr input_value) with
  | some m => m.value
  | none => enumUnknownValue enum

/-- C6 (counterexample): `"Development Engineer"` cleans to
`developmentengineer` and matches `dev_engineer`'s value, but
`"development_engineer"` keeps its underscore and matches nothing, so the
two inputs do not resolve to the same enum value — the second yields
`unknown`. -/
theorem c6_enum_normalization_counterexample :
    normalize_enum_input (txt "Development Engineer") RoleEnum =
      txt "Development Engineer" ∧
    normalize_enum_input (txt "development_engineer") RoleEnum = txt "unknown" ∧
    ((txt "Development Engineer") == (txt "unknown")) = false := by
  refine ⟨by decide, by decide, by decide⟩

/-- C6 (amended): the cleaning lowercases, removes spaces and turns hyphens
into underscores (it does not strip them), so `"Development Engineer"`,
`"developmentengineer"` and `"dev-engineer"` all resolve to
`Development Engineer`, while any input whose cleaned form matches no
member name or value resolves to `unknown`. -/
theorem c6_enum_normalization_amended :
    normalize_enum_input (txt "Development Engineer") RoleEnum =
      txt "Development Engineer" ∧
    normalize_enum_input (txt "developmentengineer") RoleEnum =
      txt "Development Engineer" ∧
    normalize_enum_input (txt "dev-engineer") RoleEnum =
      txt "Development Engineer" ∧
    (∀ s : Text,
      (∀ m ∈ RoleEnum, cleanEnumStr m.name ≠ cleanEnumStr s ∧
                       cleanEnumStr m.value ≠ cleanEnumStr s) →
      normalize_enum_input s RoleEnum = txt "unknown") := by
  refine ⟨by decide, by decide, by decide, ?_⟩
  intro s h
  unfold normalize_enum_input
  have hnone : RoleEnum.find? (fun m =>
      cleanEnumStr m.name == cleanEnumStr s ||
      cleanEnumStr m.value == cleanEnumStr s) = none := by
    rw [List.find?_eq_none]
    intro m hm
    have := h m hm
    simp only [Bool.or_eq_true, beq_iff_eq, not_or]
    exact ⟨this.1, this.2⟩
  rw [hnone]
  decide

/-- C6 (witness): the universally quantified part of the amended theorem
applied to the unrecognized input `"zzz"`. -/
theorem c6_enum_normalization_amended_witness :
    normalize_enum_input (txt "zzz") RoleEnum = txt "unknown" :=
  c6_enum_normalization_amended.2.2.2 (txt "zzz") (by decide)

/-- A node returned by the vector index's retriever (score as an exact
rational standing for the source's float). -/
structure RetrievedNode where
  id : Nat
  score : Rat

/-- A `ProcessDocument` as seen by `cluster_documents`: its id and the
`original_text` that drives retrieval. -/
structure ProcDoc where
  id : Nat
  text : Text

/-- Inner loop of `cluster_documents`: append a neighbour to the cluster
(and mark it claimed) when it scores at least the threshold and is not
already claimed. -/
def clusterInnerStep (thr : Rat) (acc : List Nat × List Nat)
    (r : RetrievedNode) : List Nat × List Nat :=
  if thr ≤ r.score ∧ r.id ∉ acc.2 then (acc.1 ++ [r.id], r.id :: acc.2) else acc

/-- The greedy single pass of `cluster_documents` from `process/proc.py`,
returning the member lists of the created `ProcessCluster` rows.  The
vector index is an external collaborator: `retrieve` is arbitrary. -/
def cluster_documents_pass (retrieve : Text → List RetrievedNode) (thr : Rat)
    (docs : List ProcDoc) : List (List Nat) :=
  (docs.foldl (fun (st : List (List Nat) × List Nat) doc =>
    if doc.id ∈ st.2 then st
    else
      let p := (retrieve doc.text).foldl (clusterInnerStep thr) ([], st.2)
      if p.1 = [] then (st.1, p.2) else (st.1 ++ [p.1], p.2)) ([], [])).1

theorem clusterInner_inv (thr : Rat) (results : List RetrievedNode) :
    ∀ (cids clustered base : List Nat),
      (base ++ cids).Nodup → (∀ x ∈ base ++ cids, x ∈ clustered) →
      ((base ++ (results.foldl (clusterInnerStep thr) (cids, clustered)).1).Nodup ∧
       (∀ x ∈ base ++ (results.foldl (clusterInnerStep thr) (cids, clustered)).1,
          x ∈ (results.foldl (clusterInnerStep thr) (cids, clustered)).2) ∧
       (∀ x ∈ clustered,
          x ∈ (results.foldl (clusterInnerStep thr) (cids, clustered)).2)) := by
  induction results with
  | nil =>
    intro cids clustered base hnd hsub
    exact ⟨hnd, hsub, fun x hx => hx⟩
  | cons r rest ih =>
    intro cids clustered base hnd hsub
    simp only [List.foldl_cons]
    by_cases hc : thr ≤ r.score ∧ r.id ∉ clustered
    · rw [clusterInnerStep, if_pos hc]
      have hnotin : r.id ∉ base ++ cids := fun hmem => hc.2 (hsub _ hmem)
      have hnd' : (base ++ (cids ++ [r.id])).Nodup := by
        rw [← List.append_assoc]
        rw [List.nodup_append]
        refine ⟨hnd, List.nodup_singleton _, ?_⟩
        intro a ha hb
        rw [List.mem_singleton] at hb
        subst hb
        exact hnotin ha
      have hsub' : ∀ x ∈ base ++ (cids ++ [r.id]), x ∈ r.id :: clustered := by
        intro x hx
        rw [← List.append_assoc] at hx
        rcases List.mem_append.mp hx with hx | hx
        · exact List.mem_cons_of_mem _ (hsub _ hx)
        · rw [List.mem_singleton] at hx
          subst hx
          exact List.mem_cons_self _ _
      obtain ⟨a, b, c⟩ := ih (cids ++ [r.id]) (r.id :: clustered) base hnd' hsub'
      exact ⟨a, b, fun x hx => c x (List.mem_cons_of_mem _ hx)⟩
    · rw [clusterInnerStep, if_neg hc]
      exact ih cids clustered base hnd hsub

/-- C9: after `cluster_documents` completes, no document id appears in more
than one cluster's member list (and none appears twice in one list):
the flattened member lists are duplicate-free, for every behaviour of the
vector index and every threshold. -/
theorem c9_cluster_exclusivity (retrieve : Text → List RetrievedNode)
    (thr : Rat) (docs : List ProcDoc) :
    ((cluster_documents_pass retrieve thr docs).flatten).Nodup := by
  suffices h : ∀ (clusters : List (List Nat)) (clustered : List Nat),
      (clusters.flatten).Nodup → (∀ x ∈ clusters.flatten, x ∈ clustered) →
      (((docs.foldl (fun (st : List (List Nat) × List Nat) doc =>
        if doc.id ∈ st.2 then st
        else
          let p := (retrieve doc.text).foldl (clusterInnerStep thr) ([], st.2)
          if p.1 = [] then (st.1, p.2) else (st.1 ++ [p.1], p.2))
        (clusters, clustered)).1.flatten).Nodup) by
    exact h [] [] (by simp) (by simp)
  induction docs with
  | nil =>
    intro clusters clustered hnd hsub
    exact hnd
  | cons doc rest ih =>
    intro clusters clustered hnd hsub
    simp only [List.foldl_cons]
    by_cases hmem : doc.id ∈ clustered
    · rw [if_pos hmem]
      exact ih clusters clustered hnd hsub
    · rw [if_neg hmem]
      obtain ⟨a, b, _⟩ := clusterInner_inv thr (retrieve doc.text) [] clustered
        clusters.flatten (by simpa using hnd) (by simpa using hsub)
      by_cases hp : ((retrieve doc.text).foldl (clusterInnerStep thr)
          ([], clustered)).1 = []
      · simp only [hp, if_pos rfl]
        refine ih clusters _ hnd ?_
        intro x hx
        exact b x (by simp [hp, hx])
      · simp only [if_neg hp]
        refine ih (clusters ++ [((retrieve doc.text).foldl (clusterInnerStep thr) ([], clustered)).1]) _ ?_ ?_
        · simpa using a
        · intro x hx
          refine b x ?_
          simpa using hx

/-! ## `classifier/router.py` — `classify_documents_background` and progress -/

/-- The status values of the module-level `classification_progress` dict. -/
inductive BgStatus where
  | idle
  | initializing
  | inProgress
  | completed
  | error
deriving DecidableEq, Repr

/-- The progress counters of one classification run. -/
structure Progress where
  total : Nat
  processed : Nat
  status : BgStatus
deriving DecidableEq, Repr

/-- Worker-visible state: the `ClassificationResult` table (latest
`result_json` per document id) and the progress dict. -/
structure BgState where
  cls : List (Nat × Text)
  prog : Progress

/-- Update the first `ClassificationResult` row matching the document id
(SQLAlchemy's `.first()` + attribute assignment). -/
def updateFirstCls : List (Nat × Text) → Nat → Text → List (Nat × Text)
  | [], _, _ => []
  | p :: rest, docId, rj =>
    if p.1 = docId then (p.1, rj) :: rest else p :: updateFirstCls rest docId rj

/-- Persistence of one document's result: overwrite the existing row's
JSON in place, else insert a new row. -/
def upsertClassification (cls : List (Nat × Text)) (docId : Nat) (rj : Text) :
    List (Nat × Text) :=
  if cls.any (fun p => p.1 = docId) then updateFirstCls cls docId rj
  else cls ++ [(docId, rj)]

/-- One iteration of the `for idx, doc_id in enumerate(documents)` loop of
`classify_documents_background`: a missing document `continue`s, an
exception rolls the document back — in both cases the progress counter is
untouched; only after a successful commit is `processed_documents` set to
`idx + 1`.  `docEnv` is the Document table (id to content). -/
def bgApply (st : BgState) (ip : Nat × Nat) :
    Except String ClassifyOutput → BgState
  | .error _ => st
  | .ok res =>
    { cls := upsertClassification st.cls ip.2 (jsonRender (result_to_json res)),
      prog := { st.prog with processed := ip.1 + 1 } }

/-- See the doc comment above: the per-document loop body. -/
def bgStep (docEnv : Nat → Option Text) (llm : Llm) (ms : Nat) (ts : Text)
    (st : BgState) (ip : Nat × Nat) : BgState :=
  match docEnv ip.2 with
  | none => st
  | some content => bgApply st ip (classify_document llm ms ts content)

/-- The full background run: the `/classifier/classify` handler resets the
progress dict to `{total: len(documents), processed: 0}`, the worker sets
`in_progress`, loops over the documents, and finally sets `completed`. -/
def classify_documents_background (docEnv : Nat → Option Text) (llm : Llm)
    (ms : Nat) (ts : Text) (docs : List Nat) (cls0 : List (Nat × Text)) :
    BgState :=
  let st0 : BgState := ⟨cls0, ⟨docs.length, 0, .inProgress⟩⟩
  let st1 := (docs.enum).foldl (bgStep docEnv llm ms ts) st0
  ⟨st1.cls, { st1.prog with status := .completed }⟩

/-- The successive states of the progress dict over one run (initial state
included), for the temporal part of the progress claim. -/
def bgStates (docEnv : Nat → Option Text) (llm : Llm) (ms : Nat) (ts : Text) :
    List (Nat × Nat) → BgState → List BgState
  | [], st => [st]
  | ip :: rest, st =>
    st :: bgStates docEnv llm ms ts rest (bgStep docEnv llm ms ts st ip)

/-- The trace of `processed_documents` values over one run. -/
def bgTrace (docEnv : Nat → Option Text) (llm : Llm) (ms : Nat) (ts : Text)
    (docs : List Nat) (cls0 : List (Nat × Text)) : List Nat :=
  (bgStates docEnv llm ms ts docs.enum ⟨cls0, ⟨docs.length, 0, .inProgress⟩⟩).map
    (fun st => st.prog.processed)

theorem bgStep_none (docEnv : Nat → Option Text) (llm : Llm) (ms : Nat)
    (ts : Text) (st : BgState) (ip : Nat × Nat) (h : docEnv ip.2 = none) :
    bgStep docEnv llm ms ts st ip = st := by
  unfold bgStep
  rw [h]

theorem bgStep_err (docEnv : Nat → Option Text) (llm : Llm) (ms : Nat)
    (ts : Text) (st : BgState) (ip : Nat × Nat) (content : Text) (e : String)
    (h1 : docEnv ip.2 = some content)
    (h2 : classify_document llm ms ts content = .error e) :
    bgStep docEnv llm ms ts st ip = st := by
  unfold bgStep
  rw [h1]
  show bgApply st ip (classify_document llm ms ts content) = st
  rw [h2]
  rfl

theorem bgStep_ok (docEnv : Nat → Option Text) (llm : Llm) (ms : Nat)
    (ts : Text) (st : BgState) (ip : Nat × Nat) (content : Text)
    (res : ClassifyOutput) (h1 : docEnv ip.2 = some content)
    (h2 : classify_document llm ms ts content = .ok res) :
    bgStep docEnv llm ms ts st ip =
      ⟨upsertClassification st.cls ip.2 (jsonRender (result_to_json res)),
       { st.prog with processed := ip.1 + 1 }⟩ := by
  unfold bgStep
  rw [h1]
  show bgApply st ip (classify_document llm ms ts content) = _
  rw [h2]
  rfl

theorem bgStep_processed (docEnv : Nat → Option Text) (llm : Llm) (ms : Nat)
    (ts : Text) (st : BgState) (ip : Nat × Nat) :
    (bgStep docEnv llm ms ts st ip).prog.processed = st.prog.processed ∨
    (bgStep docEnv llm ms ts st ip).prog.processed = ip.1 + 1 := by
  rcases hdoc : docEnv ip.2 with _ | content
  · rw [bgStep_none docEnv llm ms ts st ip hdoc]
    exact Or.inl rfl
  · rcases hcl : classify_document llm ms ts content with e | res
    · rw [bgStep_err docEnv llm ms ts st ip content e hdoc hcl]
      exact Or.inl rfl
    · rw [bgStep_ok docEnv llm ms ts st ip content res hdoc hcl]
      exact Or.inr rfl

theorem bgStep_total (docEnv : Nat → Option Text) (llm : Llm) (ms : Nat)
    (ts : Text) (st : BgState) (ip : Nat × Nat) :
    (bgStep docEnv llm ms ts st ip).prog.total = st.prog.total := by
  rcases hdoc : docEnv ip.2 with _ | content
  · rw [bgStep_none docEnv llm ms ts st ip hdoc]
  · rcases hcl : classify_document llm ms ts content with e | res
    · rw [bgStep_err docEnv llm ms ts st ip content e hdoc hcl]
    · rw [bgStep_ok docEnv llm ms ts st ip content res hdoc hcl]

theorem bgStates_mono (docEnv : Nat → Option Text) (llm : Llm) (ms : Nat)
    (ts : Text) :
    ∀ (docs : List Nat) (n : Nat) (st : BgState), st.prog.processed ≤ n →
      (((bgStates docEnv llm ms ts (List.enumFrom n docs) st).map
          (fun s => s.prog.processed)).Pairwise (· ≤ ·) ∧
       (∀ y ∈ (bgStates docEnv llm ms ts (List.enumFrom n docs) st).map
          (fun s => s.prog.processed),
          st.prog.processed ≤ y ∧ y ≤ n + docs.length)) := by
  intro docs
  induction docs with
  | nil =>
    intro n st hle
    refine ⟨by simp [bgStates], ?_⟩
    intro y hy
    simp [bgStates] at hy
    subst hy
    exact ⟨le_refl _, by simpa using hle⟩
  | cons d ds ih =>
    intro n st hle
    have hstep := bgStep_processed docEnv llm ms ts st (n, d)
    have h1 : st.prog.processed ≤
        (bgStep docEnv llm ms ts st (n, d)).prog.processed := by
      rcases hstep with h | h <;> simp only [h] <;> omega
    have h2 : (bgStep docEnv llm ms ts st (n, d)).prog.processed ≤ n + 1 := by
      rcases hstep with h | h <;> omega
    obtain ⟨ihp, ihb⟩ := ih (n + 1) (bgStep docEnv llm ms ts st (n, d)) h2
    simp only [List.enumFrom_cons, bgStates, List.map_cons, List.length_cons]
    constructor
    · rw [List.pairwise_cons]
      refine ⟨?_, ihp⟩
      intro y hy
      exact le_trans h1 (ihb y hy).1
    · intro y hy
      rcases List.mem_cons.mp hy with h | h
      · subst h
        omega
      · have := ihb y h
        omega

theorem bgFold_final (docEnv : Nat → Option Text) (llm : Llm) (ms : Nat)
    (ts : Text) :
    ∀ (docs : List Nat) (n : Nat) (st : BgState), st.prog.processed ≤ n →
      ((List.enumFrom n docs).foldl (bgStep docEnv llm ms ts) st).prog.processed
        ≤ n + docs.length ∧
      ((List.enumFrom n docs).foldl (bgStep docEnv llm ms ts) st).prog.total
        = st.prog.total ∧
      ((∀ d ∈ docs, ∃ content, docEnv d = some content ∧
          ∃ res, classify_document llm ms ts content = .ok res) →
        ((List.enumFrom n docs).foldl (bgStep docEnv llm ms ts) st).prog.processed
          = if docs = [] then st.prog.processed else n + docs.length) := by
  intro docs
  induction docs with
  | nil =>
    intro n st hle
    refine ⟨by simpa using hle, rfl, fun _ => rfl⟩
  | cons d ds ih =>
    intro n st hle
    have hstep := bgStep_processed docEnv llm ms ts st (n, d)
    have h2 : (bgStep docEnv llm ms ts st (n, d)).prog.processed ≤ n + 1 := by
      rcases hstep with h | h <;> omega
    obtain ⟨iha, ihb, ihc⟩ := ih (n + 1) (bgStep docEnv llm ms ts st (n, d)) h2
    have htot := bgStep_total docEnv llm ms ts st (n, d)
    simp only [List.enumFrom_cons, List.foldl_cons, List.length_cons]
    refine ⟨by omega, by rw [ihb, htot], ?_⟩
    intro hall
    obtain ⟨content, hc, res, hr⟩ := hall d (List.mem_cons_self d ds)
    have hproc : (bgStep docEnv llm ms ts st (n, d)).prog.processed = n + 1 := by
      rw [bgStep_ok docEnv llm ms ts st (n, d) content res hc hr]
    have hrest := ihc (fun x hx => hall x (List.mem_cons_of_mem _ hx))
    by_cases hds : ds = []
    · subst hds
      simp only [if_neg (List.cons_ne_nil d [])]
      rw [hrest, if_pos rfl, hproc]
      simp
    · rw [hrest, if_neg hds]
      simp only [if_neg (List.cons_ne_nil d ds)]
      omega

/-- C7 (amended): over one background classification run the
`processed_documents` counter is non-decreasing, and when the status is set
to `completed` it is at most `total_documents`, with equality whenever
every document in the run is found and classified without an exception;
a missing document or a per-document exception leaves the counter
untouched (it is set to `idx + 1` only after a successful commit). -/
theorem c7_progress_monotonicity_amended (docEnv : Nat → Option Text)
    (llm : Llm) (ms : Nat) (ts : Text) (docs : List Nat)
    (cls0 : List (Nat × Text)) :
    ((bgTrace docEnv llm ms ts docs cls0).Pairwise (· ≤ ·)) ∧
    (classify_documents_background docEnv llm ms ts docs cls0).prog.status
      = .completed ∧
    (classify_documents_background docEnv llm ms ts docs cls0).prog.processed
      ≤ docs.length ∧
    (classify_documents_background docEnv llm ms ts docs cls0).prog.total
      = docs.length ∧
    ((∀ d ∈ docs, ∃ content, docEnv d = some content ∧
        ∃ res, classify_document llm ms ts content = .ok res) →
      (classify_documents_background docEnv llm ms ts docs cls0).prog.processed
        = docs.length) := by
  have henum : docs.enum = List.enumFrom 0 docs := rfl
  have hmono := bgStates_mono docEnv llm ms ts docs 0
    ⟨cls0, ⟨docs.length, 0, .inProgress⟩⟩ (by simp)
  have hfin := bgFold_final docEnv llm ms ts docs 0
    ⟨cls0, ⟨docs.length, 0, .inProgress⟩⟩ (by simp)
  refine ⟨?_, rfl, ?_, ?_, ?_⟩
  · unfold bgTrace
    rw [henum]
    exact hmono.1
  · show (docs.enum.foldl (bgStep docEnv llm ms ts)
      ⟨cls0, ⟨docs.length, 0, .inProgress⟩⟩).prog.processed ≤ docs.length
    rw [henum]
    simpa using hfin.1
  · show (docs.enum.foldl (bgStep docEnv llm ms ts)
      ⟨cls0, ⟨docs.length, 0, .inProgress⟩⟩).prog.total = docs.length
    rw [henum]
    exact hfin.2.1
  · intro hall
    show (docs.enum.foldl (bgStep docEnv llm ms ts)
      ⟨cls0, ⟨docs.length, 0, .inProgress⟩⟩).prog.processed = docs.length
    rw [henum, hfin.2.2 hall]
    by_cases hd : docs = []
    · subst hd
      rfl
    · rw [if_neg hd]
      simp

/-- An LLM client that always replies `{}` — every stage parses
successfully and yields its default empty list. -/
def llmEmptyJson : Llm := fun _ _ => .ok (txt "\x7b\x7d")

/-- C7 (counterexample): with one document that is missing from the table
(or whose classification raises), the run still ends `completed`, but
`processed_documents` stays `0` while `total_documents` is `1` — the
counter is not incremented "regardless of success or failure" and does not
equal the total at completion. -/
theorem c7_progress_counterexample :
    (classify_documents_background (fun _ => none) llmNonJson 3000 (txt "T")
      [7] []).prog.status = .completed ∧
    (classify_documents_background (fun _ => none) llmNonJson 3000 (txt "T")
      [7] []).prog.processed = 0 ∧
    (classify_documents_background (fun _ => none) llmNonJson 3000 (txt "T")
      [7] []).prog.total = 1 ∧
    (classify_documents_background (fun _ => some (txt "body"))
      llmExtractRaises 3000 (txt "T") [7] []).prog.processed = 0 :=
  ⟨rfl, rfl, rfl, rfl⟩

/-- C7 (witness): the amended theorem's success case instantiated with a
client whose replies always parse, so the single document is processed and
the counter reaches the total. -/
theorem c7_progress_monotonicity_amended_witness :
    (classify_documents_background (fun _ => some (txt "x")) llmEmptyJson
      3000 (txt "T") [3] []).prog.processed = 1 :=
  (c7_progress_monotonicity_amended (fun _ => some (txt "x")) llmEmptyJson
      3000 (txt "T") [3] []).2.2.2.2
    (fun _ _ => ⟨txt "x", rfl, ⟨txt "T", Json.arr [], Json.arr []⟩, rfl⟩)

/-! ## `crawler/router.py` — `run_crawler_task` persistence (upsert) -/

/-- A `Document` produced by one crawl (`crawler.crawl(target)`).  `docId`
is the content-derived identifier (`sha256` of the URL, or of
`f"{url}_{i}"` for split parts — deterministic, so a re-crawl of the same
URL reproduces it). -/
structure CrawlDoc where
  docId : Text
  url : Text
  title : Text
  originalTitle : Text
  content : Text
  sourceType : Text
  downloadedAt : Nat
  lang : Text
deriving DecidableEq, Repr

/-- A row of the `DocumentModel` table. -/
structure DbDocRow where
  docId : Text
  url : Text
  title : Text
  originalTitle : Text
  content : Text
  sourceType : Text
  downloadedAt : Nat
  lang : Text
  ownerId : Nat
deriving DecidableEq, Repr

/-- The update branch of `run_crawler_task`: mutate the first row matching
the doc_id (`.filter(...).first()`), overwriting title, original title,
content and timestamp in place. -/
def updateFirstDoc : List DbDocRow → CrawlDoc → List DbDocRow
  | [], _ => []
  | r :: rest, d =>
    if r.docId = d.docId then
      { r with title := d.title, originalTitle := d.originalTitle,
               content := d.content, downloadedAt := d.downloadedAt } :: rest
    else r :: updateFirstDoc rest d

/-- The insert branch: a fresh row with all fields and the owner. -/
def newDocRow (d : CrawlDoc) (uid : Nat) : DbDocRow :=
  ⟨d.docId, d.url, d.title, d.originalTitle, d.content, d.sourceType,
   d.downloadedAt, d.lang, uid⟩

/-- The per-document body of `run_crawler_task`'s loop: update when a row
with the doc_id exists, insert otherwise. -/
def upsertDocument (uid : Nat) (db : List DbDocRow) (d : CrawlDoc) :
    List DbDocRow :=
  if db.any (fun r => r.docId = d.docId) then updateFirstDoc db d
  else db ++ [newDocRow d uid]

/-- `run_crawler_task` from `crawler/router.py`: upsert every crawled
document, then commit. -/
def run_crawler_task (uid : Nat) (db : List DbDocRow) (docs : List CrawlDoc) :
    List DbDocRow :=
  docs.foldl (upsertDocument uid) db

theorem updateFirstDoc_map_docId (db : List DbDocRow) (d : CrawlDoc) :
    (updateFirstDoc db d).map (fun r => r.docId) = db.map (fun r => r.docId) := by
  induction db with
  | nil => rfl
  | cons r rest ih =>
    by_cases hr : r.docId = d.docId
    · simp [updateFirstDoc, hr]
    · simp [updateFirstDoc, hr, ih]

theorem upsertDocument_map_mem (uid : Nat) (db : List DbDocRow) (d : CrawlDoc)
    (h : d.docId ∈ db.map (fun r => r.docId)) :
    (upsertDocument uid db d).map (fun r => r.docId)
      = db.map (fun r => r.docId) := by
  have hany : db.any (fun r => r.docId = d.docId) = true := by
    rw [List.any_eq_true]
    obtain ⟨r, hr, he⟩ := List.mem_map.mp h
    exact ⟨r, hr, by simp [he]⟩
  rw [upsertDocument, if_pos hany]
  exact updateFirstDoc_map_docId db d

theorem upsertDocument_map_new (uid : Nat) (db : List DbDocRow) (d : CrawlDoc)
    (h : d.docId ∉ db.map (fun r => r.docId)) :
    upsertDocument uid db d = db ++ [newDocRow d uid] := by
  have hany : db.any (fun r => r.docId = d.docId) = false := by
    rw [List.any_eq_false]
    intro r hr
    simp only [decide_eq_true_eq]
    intro he
    exact h (List.mem_map.mpr ⟨r, hr, he⟩)
  rw [upsertDocument, if_neg (by simp [hany])]

theorem upsertDocument_mem_ids (uid : Nat) (db : List DbDocRow) (d : CrawlDoc)
    (x : Text) (h : x ∈ db.map (fun r => r.docId) ∨ x = d.docId) :
    x ∈ (upsertDocument uid db d).map (fun r => r.docId) := by
  by_cases hmem : d.docId ∈ db.map (fun r => r.docId)
  · rw [upsertDocument_map_mem uid db d hmem]
    rcases h with h | h
    · exact h
    · rw [h]
      exact hmem
  · rw [upsertDocument_map_new uid db d hmem]
    rcases h with h | h
    · simp [h]
    · simp [newDocRow, h]

theorem run_crawler_task_ids_grow (uid : Nat) :
    ∀ (docs : List CrawlDoc) (db : List DbDocRow) (x : Text),
      x ∈ db.map (fun r => r.docId) →
      x ∈ (run_crawler_task uid db docs).map (fun r => r.docId) := by
  intro docs
  induction docs with
  | nil => intro db x h; exact h
  | cons d ds ih =>
    intro db x h
    exact ih (upsertDocument uid db d) x (upsertDocument_mem_ids uid db d x (Or.inl h))

theorem run_crawler_task_mem (uid : Nat) :
    ∀ (docs : List CrawlDoc) (db : List DbDocRow) (d : CrawlDoc), d ∈ docs →
      d.docId ∈ (run_crawler_task uid db docs).map (fun r => r.docId) := by
  intro docs
  induction docs with
  | nil => intro db d h; exact absurd h (List.not_mem_nil d)
  | cons e ds ih =>
    intro db d h
    rcases List.mem_cons.mp h with h | h
    · subst h
      exact run_crawler_task_ids_grow uid ds (upsertDocument uid db d) d.docId
        (upsertDocument_mem_ids uid db d d.docId (Or.inr rfl))
    · exact ih (upsertDocument uid db e) d h

theorem run_crawler_task_nodup (uid : Nat) :
    ∀ (docs : List CrawlDoc) (db : List DbDocRow),
      (db.map (fun r => r.docId)).Nodup →
      ((run_crawler_task uid db docs).map (fun r => r.docId)).Nodup := by
  intro docs
  induction docs with
  | nil => intro db h; exact h
  | cons d ds ih =>
    intro db h
    refine ih (upsertDocument uid db d) ?_
    by_cases hmem : d.docId ∈ db.map (fun r => r.docId)
    · rw [upsertDocument_map_mem uid db d hmem]
      exact h
    · rw [upsertDocument_map_new uid db d hmem]
      simp only [List.map_append, List.map_cons, List.map_nil]
      rw [List.nodup_append]
      refine ⟨h, List.nodup_singleton _, ?_⟩
      intro a ha hb
      rw [List.mem_singleton] at hb
      subst hb
      exact hmem ha

theorem run_crawler_task_length (uid : Nat) :
    ∀ (docs : List CrawlDoc) (db : List DbDocRow),
      (∀ d ∈ docs, d.docId ∈ db.map (fun r => r.docId)) →
      (run_crawler_task uid db docs).length = db.length := by
  intro docs
  induction docs with
  | nil => intro db _; rfl
  | cons d ds ih =>
    intro db h
    have hmem := h d (List.mem_cons_self d ds)
    have hup : (upsertDocument uid db d).map (fun r => r.docId)
        = db.map (fun r => r.docId) := upsertDocument_map_mem uid db d hmem
    have hlen : (upsertDocument uid db d).length = db.length := by
      have := congrArg List.length hup
      simpa using this
    show (run_crawler_task uid (upsertDocument uid db d) ds).length = db.length
    rw [ih (upsertDocument uid db d) ?_, hlen]
    intro e he
    rw [hup]
    exact h e (List.mem_cons_of_mem _ he)

theorem upsertDocument_nodup (uid : Nat) (db : List DbDocRow) (d : CrawlDoc)
    (h : (db.map (fun r => r.docId)).Nodup) :
    ((upsertDocument uid db d).map (fun r => r.docId)).Nodup := by
  by_cases hmem : d.docId ∈ db.map (fun r => r.docId)
  · rw [upsertDocument_map_mem uid db d hmem]
    exact h
  · rw [upsertDocument_map_new uid db d hmem]
    simp only [List.map_append, List.map_cons, List.map_nil]
    rw [List.nodup_append]
    refine ⟨h, List.nodup_singleton _, ?_⟩
    intro a ha hb
    rw [List.mem_singleton] at hb
    subst hb
    exact hmem ha

theorem filter_updateFirstDoc_ne (db : List DbDocRow) (d : CrawlDoc) (x : Text)
    (hx : x ≠ d.docId) :
    (updateFirstDoc db d).filter (fun r => r.docId = x)
      = db.filter (fun r => r.docId = x) := by
  have hdx : ¬(d.docId = x) := fun he => hx he.symm
  induction db with
  | nil => rfl
  | cons r rest ih =>
    by_cases hr : r.docId = d.docId
    · have hrx : ¬(r.docId = x) := by
        rw [hr]
        exact hdx
      simp [updateFirstDoc, hr, List.filter_cons, hrx, hdx]
    · by_cases hrx : r.docId = x
      · simp [updateFirstDoc, hr, List.filter_cons, hrx, hx, ih]
      · simp [updateFirstDoc, hr, List.filter_cons, hrx, hx, ih]

theorem filter_upsertDocument_ne (uid : Nat) (db : List DbDocRow)
    (d : CrawlDoc) (x : Text) (hx : x ≠ d.docId) :
    (upsertDocument uid db d).filter (fun r => r.docId = x)
      = db.filter (fun r => r.docId = x) := by
  have hdx : ¬(d.docId = x) := fun he => hx he.symm
  by_cases hmem : d.docId ∈ db.map (fun r => r.docId)
  · have hany : db.any (fun r => r.docId = d.docId) = true := by
      rw [List.any_eq_true]
      obtain ⟨r, hr, he⟩ := List.mem_map.mp hmem
      exact ⟨r, hr, by simp [he]⟩
    rw [upsertDocument, if_pos hany]
    exact filter_updateFirstDoc_ne db d x hx
  · rw [upsertDocument_map_new uid db d hmem]
    rw [List.filter_append]
    have hnil : ([newDocRow d uid].filter (fun r => r.docId = x)) = [] := by
      simp [newDocRow, hdx]
    rw [hnil, List.append_nil]

theorem run_filter_ne (uid : Nat) :
    ∀ (docs : List CrawlDoc) (db : List DbDocRow) (x : Text),
      x ∉ docs.map (fun d => d.docId) →
      (run_crawler_task uid db docs).filter (fun r => r.docId = x)
        = db.filter (fun r => r.docId = x) := by
  intro docs
  induction docs with
  | nil => intro db x _; rfl
  | cons d ds ih =>
    intro db x hx
    simp only [List.map_cons, List.mem_cons, not_or] at hx
    show (run_crawler_task uid (upsertDocument uid db d) ds).filter
        (fun r => r.docId = x) = _
    rw [ih (upsertDocument uid db d) x hx.2]
    exact filter_upsertDocument_ne uid db d x hx.1

theorem filter_updateFirstDoc_self (db : List DbDocRow) (d : CrawlDoc)
    (hnd : (db.map (fun r => r.docId)).Nodup)
    (hmem : d.docId ∈ db.map (fun r => r.docId)) :
    ∃ r, (updateFirstDoc db d).filter (fun q => q.docId = d.docId) = [r] ∧
      r.docId = d.docId ∧ r.title = d.title ∧
      r.originalTitle = d.originalTitle ∧ r.content = d.content ∧
      r.downloadedAt = d.downloadedAt := by
  induction db with
  | nil => exact absurd hmem (by simp)
  | cons r rest ih =>
    simp only [List.map_cons, List.nodup_cons] at hnd
    by_cases hr : r.docId = d.docId
    · have hrest : rest.filter (fun q => q.docId = d.docId) = [] := by
        rw [List.filter_eq_nil_iff]
        intro q hq
        simp only [decide_eq_true_eq]
        intro he
        refine hnd.1 ?_
        rw [hr, ← he]
        exact List.mem_map.mpr ⟨q, hq, rfl⟩
      refine ⟨{ r with title := d.title, originalTitle := d.originalTitle, content := d.content, downloadedAt := d.downloadedAt }, ?_, hr, rfl, rfl, rfl, rfl⟩
      simp [updateFirstDoc, hr, List.filter_cons, hrest]
    · have hmem' : d.docId ∈ rest.map (fun q => q.docId) := by
        rcases (by simpa using hmem :
            d.docId = r.docId ∨ ∃ a ∈ rest, a.docId = d.docId) with h | ⟨a, ha, he⟩
        · exact absurd h.symm hr
        · exact List.mem_map.mpr ⟨a, ha, he⟩
      obtain ⟨q, hq, hfields⟩ := ih hnd.2 hmem'
      refine ⟨q, ?_, hfields⟩
      have hrne : ¬(r.docId = d.docId) := hr
      simp [updateFirstDoc, hr, List.filter_cons, hrne, hq]

theorem filter_upsertDocument_self (uid : Nat) (db : List DbDocRow)
    (d : CrawlDoc) (hnd : (db.map (fun r => r.docId)).Nodup) :
    ∃ r, (upsertDocument uid db d).filter (fun q => q.docId = d.docId) = [r] ∧
      r.docId = d.docId ∧ r.title = d.title ∧
      r.originalTitle = d.originalTitle ∧ r.content = d.content ∧
      r.downloadedAt = d.downloadedAt := by
  by_cases hmem : d.docId ∈ db.map (fun r => r.docId)
  · have hany : db.any (fun r => r.docId = d.docId) = true := by
      rw [List.any_eq_true]
      obtain ⟨r, hr, he⟩ := List.mem_map.mp hmem
      exact ⟨r, hr, by simp [he]⟩
    rw [upsertDocument, if_pos hany]
    exact filter_updateFirstDoc_self db d hnd hmem
  · rw [upsertDocument_map_new uid db d hmem]
    refine ⟨newDocRow d uid, ?_, rfl, rfl, rfl, rfl, rfl⟩
    rw [List.filter_append]
    have h1 : db.filter (fun q => q.docId = d.docId) = [] := by
      rw [List.filter_eq_nil_iff]
      intro q hq
      simp only [decide_eq_true_eq]
      intro he
      exact hmem (List.mem_map.mpr ⟨q, hq, he⟩)
    rw [h1]
    simp [newDocRow]

theorem run_filter_mem (uid : Nat) :
    ∀ (docs : List CrawlDoc) (db : List DbDocRow),
      (db.map (fun r => r.docId)).Nodup →
      (docs.map (fun d => d.docId)).Nodup →
      ∀ d ∈ docs,
        ∃ r, (run_crawler_task uid db docs).filter
            (fun q => q.docId = d.docId) = [r] ∧
          r.docId = d.docId ∧ r.title = d.title ∧
          r.originalTitle = d.originalTitle ∧ r.content = d.content ∧
          r.downloadedAt = d.downloadedAt := by
  intro docs
  induction docs with
  | nil => intro db _ _ d h; exact absurd h (List.not_mem_nil d)
  | cons e ds ih =>
    intro db hdb hdocs d hd
    simp only [List.map_cons, List.nodup_cons] at hdocs
    rcases List.mem_cons.mp hd with h | h
    · subst h
      have hrw := run_filter_ne uid ds (upsertDocument uid db d) d.docId hdocs.1
      obtain ⟨r, hr, hfields⟩ := filter_upsertDocument_self uid db d hdb
      exact ⟨r, by rw [← hr]; exact hrw, hfields⟩
    · exact ih (upsertDocument uid db e) (upsertDocument_nodup uid db e hdb)
        hdocs.2 d h

/-- C8: re-running the crawl persistence over the same crawled documents
(update_existing semantics) leaves exactly one stored row per
content-derived doc_id: doc_ids stay duplicate-free, the second pass
inserts no new row (the table's size is unchanged), and each document's
row carries the second pass's title, original title, content and
timestamp, updated in place. -/
theorem c8_idempotent_recrawl_upsert (uid : Nat) (db : List DbDocRow)
    (docs : List CrawlDoc) (hdb : (db.map (fun r => r.docId)).Nodup)
    (hdocs : (docs.map (fun d => d.docId)).Nodup) :
    ((run_crawler_task uid (run_crawler_task uid db docs) docs).map
        (fun r => r.docId)).Nodup ∧
    (run_crawler_task uid (run_crawler_task uid db docs) docs).length
      = (run_crawler_task uid db docs).length ∧
    (∀ d ∈ docs,
      ∃ r, (run_crawler_task uid (run_crawler_task uid db docs) docs).filter
          (fun q => q.docId = d.docId) = [r] ∧
        r.docId = d.docId ∧ r.title = d.title ∧
        r.originalTitle = d.originalTitle ∧ r.content = d.content ∧
        r.downloadedAt = d.downloadedAt) := by
  have hnd1 : ((run_crawler_task uid db docs).map (fun r => r.docId)).Nodup :=
    run_crawler_task_nodup uid docs db hdb
  refine ⟨run_crawler_task_nodup uid docs _ hnd1, ?_, ?_⟩
  · exact run_crawler_task_length uid docs _
      (fun d hd => run_crawler_task_mem uid docs db d hd)
  · exact run_filter_mem uid docs _ hnd1 hdocs

/-- C8 (witness): the theorem applied to a concrete one-document crawl over
an empty table: two passes leave one row carrying the crawl's content. -/
theorem c8_idempotent_recrawl_upsert_witness :
    ∃ r, (run_crawler_task 1
        (run_crawler_task 1 []
          [⟨txt "id1", txt "u", txt "t", txt "o", txt "c", txt "HTML", 5, txt "en"⟩])
        [⟨txt "id1", txt "u", txt "t", txt "o", txt "c", txt "HTML", 5, txt "en"⟩]).filter
        (fun q => q.docId = txt "id1") = [r] ∧
      r.docId = txt "id1" ∧ r.title = txt "t" ∧ r.originalTitle = txt "o" ∧
      r.content = txt "c" ∧ r.downloadedAt = 5 :=
  (c8_idempotent_recrawl_upsert 1 []
      [⟨txt "id1", txt "u", txt "t", txt "o", txt "c", txt "HTML", 5, txt "en"⟩]
      (by decide) (by decide)).2.2
    ⟨txt "id1", txt "u", txt "t", txt "o", txt "c", txt "HTML", 5, txt "en"⟩
    (List.mem_singleton.mpr rfl)

/-! ## `crawler/crawler.py` — `_split_content_by_type` -/

/-- A chunk produced by the content splitter. -/
structure Chunk where
  title : Text
  content : Text
deriving DecidableEq, Repr

/-- The paragraph separator `"\n\n"`. -/
def nn : Text := txt "\n\n"

/-- The paragraph-accumulation loop shared by the HTML branch and the
oversized-chapter sub-split of the TOC branch: flush the running buffer
when appending the next paragraph would exceed the budget, else join with
`"\n\n"` and strip.  `mkTitle` renders the flush counter (`count` is
ignored on the HTML path, and is `"<chapter> (Part k)"` on the TOC path). -/
def accumGo (mkTitle : Nat → Text) (maxSize : Nat) :
    List Text → Text → Nat → List Chunk
  | [], current, count =>
    if current = [] then [] else [⟨mkTitle count, current⟩]
  | para :: rest, current, count =>
    if current.length + para.length > maxSize ∧ current ≠ [] then
      ⟨mkTitle count, current⟩ :: accumGo mkTitle maxSize rest para (count + 1)
    else
      accumGo mkTitle maxSize rest (pyStrip (current ++ nn ++ para)) count

/-- The page-accumulation loop of the PDF-without-TOC branch: plain
concatenation, no separator, no strip. -/
def pageGo (title : Text) (maxSize : Nat) : List Text → Text → List Chunk
  | [], current =>
    if current = [] then [] else [⟨title, current⟩]
  | page :: rest, current =>
    if current.length + page.length > maxSize ∧ current ≠ [] then
      ⟨title, current⟩ :: pageGo title maxSize rest page
    else
      pageGo title maxSize rest (current ++ page)

/-- Match of the regex `\[/PAGE_\d+\]\n` at the head of the text, returning
the remainder after the match. -/
def matchPageClose : Text → Option Text
  | '[' :: '/' :: 'P' :: 'A' :: 'G' :: 'E' :: '_' :: rest =>
    let ds := rest.takeWhile Char.isDigit
    if ds = [] then none
    else
      match rest.drop ds.length with
      | ']' :: '\n' :: r => some r
      | _ => none
  | _ => none

/-- `re.split(r"\[/PAGE_\d+\]\n", content)`: split at every leftmost,
non-overlapping match (fuel-indexed; the fuel never runs out when it
starts at the text's length, since every step consumes a character). -/
def splitPagesGo : Nat → Text → Text → List Text
  | _, [], acc => [acc.reverse]
  | 0, s, acc => [acc.reverse ++ s]
  | fuel + 1, s, acc =>
    match matchPageClose s with
    | some r => acc.reverse :: splitPagesGo fuel r []
    | none =>
      match s with
      | [] => [acc.reverse]
      | c :: rest => splitPagesGo fuel rest (c :: acc)

/-- The page list of the PDF branch, before the `filter(str.strip, ...)`. -/
def splitPages (content : Text) : List Text :=
  splitPagesGo content.length content []

/-- One TOC entry as prepared by `_extract_pdf_toc` (level, title, target
page and that page's text). -/
structure TocEntry where
  level : Int
  title : Text
  pageNum : Int
  text : Text
deriving DecidableEq, Repr

/-- A chapter assembled by the TOC branch: title, running content and the
`page_nums` set the code itself tracks. -/
structure Chapter where
  title : Text
  content : Text
  pageNums : List Int
deriving DecidableEq, Repr

/-- `page_nums` of the open chapter, `[]` when none is open. -/
def curPn : Option Chapter → List Int
  | some c => c.pageNums
  | none => []

/-- The non-level-1 arm of the chapter-building loop: append the
`[SECTION: ...]` header to the open chapter, plus the entry's page text
when that page is not yet in `processed_pages` (updating the chapter's
`page_nums` and the processed set). -/
def sectionAppend (e : TocEntry) (c : Chapter) (processed : List Int) :
    Chapter × List Int :=
  if e.pageNum ∈ processed then
    (⟨c.title, c.content ++ (txt "\n[SECTION: " ++ e.title ++ txt "]\n"),
      c.pageNums⟩, processed)
  else
    (⟨c.title, c.content ++ (txt "\n[SECTION: " ++ e.title ++ txt "]\n")
        ++ e.text, c.pageNums ++ [e.pageNum]⟩, e.pageNum :: processed)

/-- The chapter-building loop of the TOC branch: a level-1 entry closes the
open chapter and opens a new one with a `[CHAPTER: ...]` header; other
entries append a `[SECTION: ...]` header to the open chapter (and are
dropped when no chapter is open).  A page's text is appended only when its
page number is not yet in `processed_pages`. -/
def buildChaptersGo :
    List TocEntry → List Chapter → Option Chapter → List Int → List Chapter
  | [], chapters, current, _ =>
    match current with
    | some c => chapters ++ [c]
    | none => chapters
  | e :: rest, chapters, current, processed =>
    if e.level = 1 then
      let chapters' := match current with
        | some c => chapters ++ [c]
        | none => chapters
      if e.pageNum ∈ processed then
        buildChaptersGo rest chapters'
          (some ⟨e.title, txt "[CHAPTER: " ++ e.title ++ txt "]\n", []⟩)
          processed
      else
        buildChaptersGo rest chapters'
          (some ⟨e.title, (txt "[CHAPTER: " ++ e.title ++ txt "]\n") ++ e.text,
                 [e.pageNum]⟩)
          (e.pageNum :: processed)
    else
      match current with
      | none => buildChaptersGo rest chapters none processed
      | some c =>
        buildChaptersGo rest chapters (some (sectionAppend e c processed).1)
          (sectionAppend e c processed).2

/-- The chapters assembled from the TOC entries. -/
def build_chapters (toc : List TocEntry) : List Chapter :=
  buildChaptersGo toc [] none []

/-- Chunks of one chapter: emitted whole when within budget, else
paragraph-sub-split with `"<chapter> (Part k)"` titles. -/
def chapterChunks (maxSize : Nat) (ch : Chapter) : List Chunk :=
  if ch.content.length ≤ maxSize then [⟨ch.title, ch.content⟩]
  else
    accumGo (fun k => ch.title ++ txt " (Part " ++ txt k.repr ++ txt ")")
      maxSize (splitOnSep nn ch.content) [] 1

/-- `Crawler._split_content_by_type`: TOC-based split for a PDF with a
(non-empty) TOC, page-marker split for other PDFs, blank-line paragraph
split for HTML, and fixed-size slicing for anything else.  (For
`max_size = 0` the OTHER branch of the source raises `ValueError` from
`range`; here it returns `[]` — the theorems assume `0 < max_size`.) -/
def split_content_by_type (content : Text) (source_type : Text)
    (max_size : Nat) (title : Text) (toc_info : Option (List TocEntry)) :
    List Chunk :=
  if source_type = txt "PDF" ∧ toc_info.getD [] ≠ [] then
    (build_chapters (toc_info.getD [])).flatMap (chapterChunks max_size)
  else if source_type = txt "PDF" then
    pageGo title max_size
      ((splitPages content).filter (fun p => pyStrip p ≠ [])) []
  else if source_type = txt "HTML" then
    accumGo (fun _ => title) max_size (splitOnSep nn content) [] 1
  else
    (List.range ((content.length + max_size - 1) / max_size)).map
      (fun i => ⟨title, (content.drop (i * max_size)).take max_size⟩)

/-- The atomic units of a split: the paragraphs of each oversized chapter
(TOC branch), the non-blank pages (PDF branch), the paragraphs (HTML
branch); the OTHER branch has none (it slices unconditionally). -/
def atomic_units (content : Text) (source_type : Text) (max_size : Nat)
    (toc_info : Option (List TocEntry)) : List Text :=
  if source_type = txt "PDF" ∧ toc_info.getD [] ≠ [] then
    (build_chapters (toc_info.getD [])).flatMap (fun ch =>
      if ch.content.length ≤ max_size then [] else splitOnSep nn ch.content)
  else if source_type = txt "PDF" then
    (splitPages content).filter (fun p => pyStrip p ≠ [])
  else if source_type = txt "HTML" then
    splitOnSep nn content
  else
    []

theorem splitOnSep_eval_check : splitOnSep nn (txt "ab\n\ncd") = [txt "ab", txt "cd"] := by decide

theorem splitGoF_nil (c0 : Char) (sep' : Text) (fuel : Nat) :
    splitGoF c0 sep' fuel [] = [[]] := by
  cases fuel <;> rfl

theorem splitGoF_fuel (c0 : Char) (sep' : Text) :
    ∀ (f1 : Nat) (s : Text) (f2 : Nat), s.length ≤ f1 → s.length ≤ f2 →
      splitGoF c0 sep' f1 s = splitGoF c0 sep' f2 s := by
  intro f1
  induction f1 with
  | zero =>
    intro s f2 h1 _
    have hs : s = [] := List.length_eq_zero.mp (Nat.le_zero.mp h1)
    subst hs
    rw [splitGoF, splitGoF_nil]
  | succ f ih =>
    intro s f2 h1 h2
    cases s with
    | nil => rw [splitGoF_nil, splitGoF_nil]
    | cons c rest =>
      cases f2 with
      | zero => exact absurd h2 (by simp)
      | succ g =>
        simp only [List.length_cons, Nat.succ_le_succ_iff] at h1 h2
        rw [splitGoF, splitGoF]
        by_cases hp : (c0 :: sep').isPrefixOf (c :: rest) = true
        · rw [if_pos hp, if_pos hp]
          rw [ih (rest.drop sep'.length) g
            (le_trans (by simp [List.length_drop]) h1)
            (le_trans (by simp [List.length_drop]) h2)]
        · rw [if_neg hp, if_neg hp, ih rest g h1 h2]

theorem splitOnSep_cons_match (c0 : Char) (sep' : Text) (c : Char)
    (rest : Text) (h : (c0 :: sep').isPrefixOf (c :: rest) = true) :
    splitOnSep (c0 :: sep') (c :: rest) =
      [] :: splitOnSep (c0 :: sep') (rest.drop sep'.length) := by
  show splitGoF c0 sep' (rest.length + 1) (c :: rest) = _
  rw [splitGoF, if_pos h]
  show _ = [] :: splitGoF c0 sep' (rest.drop sep'.length).length (rest.drop sep'.length)
  rw [splitGoF_fuel c0 sep' rest.length (rest.drop sep'.length)
    (rest.drop sep'.length).length (by simp [List.length_drop]) (le_refl _)]

theorem splitOnSep_cons_nomatch (c0 : Char) (sep' : Text) (c : Char)
    (rest : Text) (h : ¬((c0 :: sep').isPrefixOf (c :: rest) = true)) :
    splitOnSep (c0 :: sep') (c :: rest) =
      match splitOnSep (c0 :: sep') rest with
      | [] => [[c]]
      | t :: ts => (c :: t) :: ts := by
  show splitGoF c0 sep' (rest.length + 1) (c :: rest) = _
  rw [splitGoF, if_neg h]
  rfl

theorem splitOnSep_ne_nil (sep s : Text) : splitOnSep sep s ≠ [] := by
  match sep with
  | [] => simp [splitOnSep]
  | c0 :: sep' =>
    match s with
    | [] =>
      show splitGoF c0 sep' 0 [] ≠ []
      rw [splitGoF_nil]
      simp
    | c :: rest =>
      by_cases hp : (c0 :: sep').isPrefixOf (c :: rest) = true
      · rw [splitOnSep_cons_match c0 sep' c rest hp]
        simp
      · rw [splitOnSep_cons_nomatch c0 sep' c rest hp]
        rcases splitOnSep (c0 :: sep') rest with _ | ⟨t, ts⟩ <;> simp

theorem intercalate_cons2 (sep a : Text) (l : List Text) (h : l ≠ []) :
    List.intercalate sep (a :: l) = a ++ sep ++ List.intercalate sep l := by
  match l with
  | [] => exact absurd rfl h
  | b :: m =>
    show (List.intersperse sep (a :: b :: m)).flatten = _
    rw [List.intersperse_cons₂]
    show a ++ (sep ++ (List.intersperse sep (b :: m)).flatten) = _
    rw [List.append_assoc]
    rfl

theorem intercalate_singleton (sep a : Text) :
    List.intercalate sep [a] = a := by
  show (List.intersperse sep [a]).flatten = a
  simp

theorem intercalate_splitOnSep (c0 : Char) (sep' : Text) :
    ∀ (n : Nat) (s : Text), s.length ≤ n →
      List.intercalate (c0 :: sep') (splitOnSep (c0 :: sep') s) = s := by
  intro n
  induction n with
  | zero =>
    intro s h
    have hs : s = [] := List.length_eq_zero.mp (Nat.le_zero.mp h)
    subst hs
    show List.intercalate (c0 :: sep') (splitGoF c0 sep' 0 []) = []
    rw [splitGoF_nil, intercalate_singleton]
  | succ m ih =>
    intro s hlen
    cases s with
    | nil =>
      show List.intercalate (c0 :: sep') (splitGoF c0 sep' 0 []) = []
      rw [splitGoF_nil, intercalate_singleton]
    | cons c rest =>
      simp only [List.length_cons, Nat.succ_le_succ_iff] at hlen
      by_cases hp : (c0 :: sep').isPrefixOf (c :: rest) = true
      · rw [splitOnSep_cons_match c0 sep' c rest hp]
        rw [intercalate_cons2 _ _ _ (splitOnSep_ne_nil _ _)]
        have hdroplen : (rest.drop sep'.length).length ≤ m :=
          le_trans (by simp [List.length_drop]) hlen
        rw [ih (rest.drop sep'.length) hdroplen]
        have hpre : (c0 :: sep') <+: (c :: rest) :=
          List.isPrefixOf_iff_prefix.mp hp
        obtain ⟨t, ht⟩ := hpre
        have hdrop : (c :: rest).drop (c0 :: sep').length = t := by
          rw [← ht, List.drop_left]
        have hdrop' : rest.drop sep'.length = t := hdrop
        rw [hdrop', List.nil_append, ← ht]
      · rw [splitOnSep_cons_nomatch c0 sep' c rest hp]
        have hne := splitOnSep_ne_nil (c0 :: sep') rest
        have hrec := ih rest hlen
        rcases hsp : splitOnSep (c0 :: sep') rest with _ | ⟨t, ts⟩
        · exact absurd hsp hne
        · rw [hsp] at hrec
          cases ts with
          | nil =>
            rw [intercalate_singleton] at hrec ⊢
            rw [hrec]
          | cons u us =>
            rw [intercalate_cons2 _ _ _ (by simp)] at hrec ⊢
            rw [← hrec]
            simp

theorem pyStrip_length_le (s : Text) : (pyStrip s).length ≤ s.length := by
  unfold pyStrip
  calc (((s.dropWhile isPyWs).reverse.dropWhile isPyWs).reverse).length
      = ((s.dropWhile isPyWs).reverse.dropWhile isPyWs).length := by
        rw [List.length_reverse]
    _ ≤ (s.dropWhile isPyWs).reverse.length :=
        (List.dropWhile_sublist isPyWs).length_le
    _ = (s.dropWhile isPyWs).length := by rw [List.length_reverse]
    _ ≤ s.length := (List.dropWhile_sublist isPyWs).length_le

theorem dropWhile_all_append (p : Char → Bool) :
    ∀ (w x : Text), (∀ c ∈ w, p c = true) →
      (w ++ x).dropWhile p = x.dropWhile p := by
  intro w
  induction w with
  | nil => intro x _; rfl
  | cons c rest ih =>
    intro x h
    have hc : p c = true := h c (List.mem_cons_self c rest)
    show ((c :: (rest ++ x)).dropWhile p) = x.dropWhile p
    rw [List.dropWhile_cons_of_pos hc]
    exact ih x (fun d hd => h d (List.mem_cons_of_mem _ hd))

theorem pyStrip_nn_append (p : Text) : pyStrip (nn ++ p) = pyStrip p := by
  unfold pyStrip
  rw [dropWhile_all_append isPyWs nn p (by decide)]

theorem pyStrip_of_invariants (p : Text) (h1 : p.dropWhile isPyWs = p)
    (h2 : p.reverse.dropWhile isPyWs = p.reverse) : pyStrip p = p := by
  unfold pyStrip
  rw [h1, h2, List.reverse_reverse]

theorem dropWhile_eq_self_append (p : Char → Bool) (s t : Text)
    (h : s.dropWhile p = s) (hne : s ≠ []) :
    (s ++ t).dropWhile p = s ++ t := by
  match s with
  | [] => exact absurd rfl hne
  | c :: u =>
    have hc : ¬ p c = true := by
      intro hpc
      have := h
      rw [List.dropWhile_cons_of_pos hpc] at this
      have hlen := congrArg List.length this
      have hle := (List.dropWhile_sublist (l := u) p).length_le
      simp at hlen
      omega
    show ((c :: (u ++ t)).dropWhile p) = _
    rw [List.dropWhile_cons_of_neg hc]
    rfl

theorem pyStrip_append_noop (a m b : Text) (hane : a ≠ [])
    (ha : a.dropWhile isPyWs = a) (hbne : b ≠ [])
    (hb : b.reverse.dropWhile isPyWs = b.reverse) :
    pyStrip (a ++ m ++ b) = a ++ m ++ b := by
  unfold pyStrip
  rw [List.append_assoc, dropWhile_eq_self_append isPyWs a (m ++ b) ha hane]
  rw [← List.append_assoc]
  have hrev : (a ++ m ++ b).reverse = b.reverse ++ (m.reverse ++ a.reverse) := by
    simp [List.reverse_append, List.append_assoc]
  rw [hrev, dropWhile_eq_self_append isPyWs b.reverse (m.reverse ++ a.reverse)
    hb (by simpa using hbne), ← hrev, List.reverse_reverse]

theorem accumGo_bound (mkTitle : Nat → Text) (maxSize : Nat) (A : Text → Prop) :
    ∀ (paras : List Text), (∀ p ∈ paras, A p ∧ A (pyStrip p)) →
    ∀ (cur : Text) (count : Nat),
      (cur = [] ∨ A cur ∨ cur.length ≤ maxSize + 2) →
    ∀ ch ∈ accumGo mkTitle maxSize paras cur count,
      A ch.content ∨ ch.content.length ≤ maxSize + 2 := by
  intro paras
  induction paras with
  | nil =>
    intro _ cur count hcur ch hch
    rw [accumGo] at hch
    by_cases hc : cur = []
    · rw [if_pos hc] at hch
      exact absurd hch (List.not_mem_nil ch)
    · rw [if_neg hc] at hch
      rw [List.mem_singleton] at hch
      subst hch
      rcases hcur with h | h | h
      · exact absurd h hc
      · exact Or.inl h
      · exact Or.inr h
  | cons para rest ih =>
    intro hA cur count hcur ch hch
    have hApara := hA para (List.mem_cons_self para rest)
    have hA' : ∀ p ∈ rest, A p ∧ A (pyStrip p) :=
      fun p hp => hA p (List.mem_cons_of_mem _ hp)
    rw [accumGo] at hch
    by_cases hcond : cur.length + para.length > maxSize ∧ cur ≠ []
    · rw [if_pos hcond] at hch
      rcases List.mem_cons.mp hch with h | h
      · subst h
        rcases hcur with h | h | h
        · exact absurd h hcond.2
        · exact Or.inl h
        · exact Or.inr h
      · exact ih hA' para (count + 1) (Or.inr (Or.inl hApara.1)) ch h
    · rw [if_neg hcond] at hch
      refine ih hA' (pyStrip (cur ++ nn ++ para)) count ?_ ch hch
      by_cases hc : cur = []
      · subst hc
        rw [List.nil_append, pyStrip_nn_append]
        exact Or.inr (Or.inl hApara.2)
      · have hle : cur.length + para.length ≤ maxSize := by
          rcases Decidable.not_and_iff_or_not.mp hcond with h | h
          · omega
          · exact absurd hc h
        refine Or.inr (Or.inr ?_)
        calc (pyStrip (cur ++ nn ++ para)).length
            ≤ (cur ++ nn ++ para).length := pyStrip_length_le _
          _ = cur.length + 2 + para.length := by
              simp only [List.length_append, nn, txt]
              simp
          _ ≤ maxSize + 2 := by omega

theorem pageGo_bound (title : Text) (maxSize : Nat) (pages₀ : List Text) :
    ∀ (pages : List Text), (∀ p ∈ pages, p ∈ pages₀) →
    ∀ (cur : Text), (cur = [] ∨ cur ∈ pages₀ ∨ cur.length ≤ maxSize) →
    ∀ ch ∈ pageGo title maxSize pages cur,
      ch.content ∈ pages₀ ∨ ch.content.length ≤ maxSize := by
  intro pages
  induction pages with
  | nil =>
    intro _ cur hcur ch hch
    rw [pageGo] at hch
    by_cases hc : cur = []
    · rw [if_pos hc] at hch
      exact absurd hch (List.not_mem_nil ch)
    · rw [if_neg hc] at hch
      rw [List.mem_singleton] at hch
      subst hch
      rcases hcur with h | h | h
      · exact absurd h hc
      · exact Or.inl h
      · exact Or.inr h
  | cons page rest ih =>
    intro hsub cur hcur ch hch
    have hpage := hsub page (List.mem_cons_self page rest)
    have hsub' : ∀ p ∈ rest, p ∈ pages₀ :=
      fun p hp => hsub p (List.mem_cons_of_mem _ hp)
    rw [pageGo] at hch
    by_cases hcond : cur.length + page.length > maxSize ∧ cur ≠ []
    · rw [if_pos hcond] at hch
      rcases List.mem_cons.mp hch with h | h
      · subst h
        rcases hcur with h | h | h
        · exact absurd h hcond.2
        · exact Or.inl h
        · exact Or.inr h
      · exact ih hsub' page (Or.inr (Or.inl hpage)) ch h
    · rw [if_neg hcond] at hch
      refine ih hsub' (cur ++ page) ?_ ch hch
      by_cases hc : cur = []
      · subst hc
        rw [List.nil_append]
        exact Or.inr (Or.inl hpage)
      · have hle : cur.length + page.length ≤ maxSize := by
          rcases Decidable.not_and_iff_or_not.mp hcond with h | h
          · omega
          · exact absurd hc h
        refine Or.inr (Or.inr ?_)
        simp only [List.length_append]
        omega

/-- C4 (amended): every chunk the splitter emits is within
`max_size + 2` characters — the paragraph-accumulation check ignores the
two-character `"\n\n"` separator, so multi-paragraph chunks can overshoot
the budget by up to 2 — except a chunk consisting of a single atomic unit
(one paragraph of an oversized chapter, one page, or one HTML paragraph,
possibly stripped), which is emitted oversized rather than truncated;
the PDF page branch and the OTHER fixed-slicing branch never exceed
`max_size` at all. -/
theorem c4_chunk_size_bound_amended (content source_type : Text)
    (max_size : Nat) (title : Text) (toc_info : Option (List TocEntry))
    (_hms : 0 < max_size) (chunk : Chunk)
    (hchunk : chunk ∈ split_content_by_type content source_type max_size
        title toc_info) :
    chunk.content.length ≤ max_size + 2 ∨
    ∃ p ∈ atomic_units content source_type max_size toc_info,
      chunk.content = p ∨ chunk.content = pyStrip p := by
  rw [split_content_by_type] at hchunk
  rw [atomic_units]
  by_cases h1 : source_type = txt "PDF" ∧ toc_info.getD [] ≠ []
  · rw [if_pos h1] at hchunk ⊢
    obtain ⟨ch, hmem, hin⟩ := List.mem_flatMap.mp hchunk
    rw [chapterChunks] at hin
    by_cases hsize : ch.content.length ≤ max_size
    · rw [if_pos hsize] at hin
      rw [List.mem_singleton] at hin
      subst hin
      exact Or.inl (le_trans hsize (by omega))
    · rw [if_neg hsize] at hin
      have := accumGo_bound
        (fun k => ch.title ++ txt " (Part " ++ txt k.repr ++ txt ")") max_size
        (fun c => ∃ p ∈ (build_chapters (toc_info.getD [])).flatMap (fun c2 =>
          if c2.content.length ≤ max_size then []
          else splitOnSep nn c2.content), c = p ∨ c = pyStrip p)
        (splitOnSep nn ch.content)
        (fun p hp => ⟨⟨p, List.mem_flatMap.mpr ⟨ch, hmem, by
            rw [if_neg hsize]; exact hp⟩, Or.inl rfl⟩,
          ⟨p, List.mem_flatMap.mpr ⟨ch, hmem, by
            rw [if_neg hsize]; exact hp⟩, Or.inr rfl⟩⟩)
        [] 1 (Or.inl rfl) chunk hin
      rcases this with h | h
      · exact Or.inr h
      · exact Or.inl h
  · rw [if_neg h1] at hchunk ⊢
    by_cases h2 : source_type = txt "PDF"
    · rw [if_pos h2] at hchunk ⊢
      have := pageGo_bound title max_size
        ((splitPages content).filter (fun p => pyStrip p ≠ []))
        ((splitPages content).filter (fun p => pyStrip p ≠ []))
        (fun p hp => hp) [] (Or.inl rfl) chunk hchunk
      rcases this with h | h
      · exact Or.inr ⟨chunk.content, h, Or.inl rfl⟩
      · exact Or.inl (le_trans h (by omega))
    · rw [if_neg h2] at hchunk ⊢
      by_cases h3 : source_type = txt "HTML"
      · rw [if_pos h3] at hchunk ⊢
        have := accumGo_bound (fun _ => title) max_size
          (fun c => ∃ p ∈ splitOnSep nn content, c = p ∨ c = pyStrip p)
          (splitOnSep nn content)
          (fun p hp => ⟨⟨p, hp, Or.inl rfl⟩, ⟨p, hp, Or.inr rfl⟩⟩)
          [] 1 (Or.inl rfl) chunk hchunk
        rcases this with h | h
        · exact Or.inr h
        · exact Or.inl h
      · rw [if_neg h3] at hchunk
        obtain ⟨i, _, hi⟩ := List.mem_map.mp hchunk
        refine Or.inl ?_
        rw [← hi]
        calc ((content.drop (i * max_size)).take max_size).length
            ≤ max_size := by simp [List.length_take]
          _ ≤ max_size + 2 := by omega

/-- C4 (counterexample): on the HTML path with `max_size = 4`, the content
`"ab\n\ncd"` is emitted as the single chunk `"ab\n\ncd"` of length 6 — the
accumulation check compares `len("ab") + len("cd") = 4 ≤ 4` and ignores the
two-character separator — and this chunk is not a single atomic unit
(the paragraphs are `"ab"` and `"cd"`), refuting the claimed
`len(content) <= max_size` bound. -/
theorem c4_chunk_size_bound_counterexample :
    split_content_by_type (txt "ab\n\ncd") (txt "HTML") 4 (txt "t") none =
      [⟨txt "t", txt "ab\n\ncd"⟩] ∧
    (txt "ab\n\ncd").length = 6 ∧
    atomic_units (txt "ab\n\ncd") (txt "HTML") 4 none = [txt "ab", txt "cd"] ∧
    ((atomic_units (txt "ab\n\ncd") (txt "HTML") 4 none).contains
      (txt "ab\n\ncd")) = false ∧
    (((atomic_units (txt "ab\n\ncd") (txt "HTML") 4 none).map pyStrip).contains
      (txt "ab\n\ncd")) = false := by
  refine ⟨by decide, by decide, by decide, by decide, by decide⟩

/-- C4 (witness): the amended bound applied to the concrete oversized
chunk above (its length 6 is within `max_size + 2 = 6`). -/
theorem c4_chunk_size_bound_amended_witness :
    (⟨txt "t", txt "ab\n\ncd"⟩ : Chunk).content.length ≤ 4 + 2 ∨
    ∃ p ∈ atomic_units (txt "ab\n\ncd") (txt "HTML") 4 none,
      (⟨txt "t", txt "ab\n\ncd"⟩ : Chunk).content = p ∨
      (⟨txt "t", txt "ab\n\ncd"⟩ : Chunk).content = pyStrip p :=
  c4_chunk_size_bound_amended (txt "ab\n\ncd") (txt "HTML") 4 (txt "t") none
    (by decide) ⟨txt "t", txt "ab\n\ncd"⟩ (by decide)

/-- A paragraph that is non-empty and carries no leading or trailing
whitespace (so the accumulation loop's `strip` leaves it intact). -/
abbrev GoodPara (p : Text) : Prop :=
  p ≠ [] ∧ p.dropWhile isPyWs = p ∧ p.reverse.dropWhile isPyWs = p.reverse

theorem goodPara_strip (p : Text) (h : GoodPara p) : pyStrip p = p :=
  pyStrip_of_invariants p h.2.1 h.2.2

theorem goodPara_append (cur para : Text) (hc : GoodPara cur)
    (hp : GoodPara para) :
    GoodPara (cur ++ nn ++ para) ∧
    pyStrip (cur ++ nn ++ para) = cur ++ nn ++ para := by
  refine ⟨⟨?_, ?_, ?_⟩, pyStrip_append_noop cur nn para hc.1 hc.2.1 hp.1 hp.2.2⟩
  · simp [hc.1]
  · rw [List.append_assoc]
    exact dropWhile_eq_self_append isPyWs cur (nn ++ para) hc.2.1 hc.1
  · have hrev : (cur ++ nn ++ para).reverse
        = para.reverse ++ (nn.reverse ++ cur.reverse) := by
      simp [List.reverse_append, List.append_assoc]
    rw [hrev]
    exact dropWhile_eq_self_append isPyWs para.reverse
      (nn.reverse ++ cur.reverse) hp.2.2 (by simpa using hp.1)

/-- The text still owed to the output: the running buffer joined (with the
dropped separator) to the unprocessed paragraphs. -/
def joinCur (cur : Text) (paras : List Text) : Text :=
  if cur = [] then List.intercalate nn paras
  else if paras = [] then cur else cur ++ nn ++ List.intercalate nn paras

theorem joinCur_eq_intercalate_cons (para : Text) (rest : List Text)
    (h : para ≠ []) :
    joinCur para rest = List.intercalate nn (para :: rest) := by
  rw [joinCur, if_neg h]
  cases rest with
  | nil => rw [if_pos rfl, intercalate_singleton]
  | cons r rs =>
    rw [if_neg (by simp), intercalate_cons2 nn para (r :: rs) (by simp)]

theorem joinCur_append (cur para : Text) (rest : List Text)
    (hc : cur ≠ []) :
    joinCur (cur ++ nn ++ para) rest = joinCur cur (para :: rest) := by
  cases rest with
  | nil =>
    rw [joinCur, if_neg (by simp [hc]), if_pos rfl]
    rw [joinCur, if_neg hc, if_neg (by simp), intercalate_singleton]
  | cons r rs =>
    rw [joinCur, if_neg (by simp [hc]), if_neg (by simp)]
    rw [joinCur, if_neg hc, if_neg (by simp)]
    rw [intercalate_cons2 nn para (r :: rs) (by simp)]
    simp [List.append_assoc]

theorem accumGo_reconstruct (mkTitle : Nat → Text) (maxSize : Nat) :
    ∀ (paras : List Text), (∀ p ∈ paras, GoodPara p) →
    ∀ (cur : Text) (count : Nat), (cur = [] ∨ GoodPara cur) →
      (List.intercalate nn
          ((accumGo mkTitle maxSize paras cur count).map (fun ch => ch.content))
        = joinCur cur paras) ∧
      (accumGo mkTitle maxSize paras cur count = [] ↔ (cur = [] ∧ paras = [])) := by
  intro paras
  induction paras with
  | nil =>
    intro _ cur count hcur
    rw [accumGo]
    by_cases hc : cur = []
    · rw [if_pos hc, joinCur, if_pos hc]
      exact ⟨rfl, by simp [hc]⟩
    · rw [if_neg hc, joinCur, if_neg hc, if_pos rfl]
      exact ⟨by simp [intercalate_singleton], by simp [hc]⟩
  | cons para rest ih =>
    intro hgood cur count hcur
    have hpara : GoodPara para := hgood para (List.mem_cons_self para rest)
    have hgood' : ∀ p ∈ rest, GoodPara p :=
      fun p hp => hgood p (List.mem_cons_of_mem _ hp)
    rw [accumGo]
    by_cases hcond : cur.length + para.length > maxSize ∧ cur ≠ []
    · rw [if_pos hcond]
      obtain ⟨iheq, ihiff⟩ := ih hgood' para (count + 1) (Or.inr hpara)
      have hne : accumGo mkTitle maxSize rest para (count + 1) ≠ [] := by
        rw [ne_eq, ihiff]
        intro hand
        exact hpara.1 hand.1
      constructor
      · rw [List.map_cons]
        rw [intercalate_cons2 nn cur _ (by
          intro hmap
          exact hne (List.map_eq_nil_iff.mp hmap))]
        rw [iheq, joinCur_eq_intercalate_cons para rest hpara.1]
        rw [joinCur, if_neg hcond.2, if_neg (by simp)]
      · simp
    · rw [if_neg hcond]
      by_cases hc : cur = []
      · subst hc
        have hstrip : pyStrip (([] : Text) ++ nn ++ para) = para := by
          rw [List.nil_append, pyStrip_nn_append, goodPara_strip para hpara]
        rw [hstrip]
        obtain ⟨iheq, ihiff⟩ := ih hgood' para count (Or.inr hpara)
        constructor
        · rw [iheq, joinCur_eq_intercalate_cons para rest hpara.1]
          rw [joinCur, if_pos rfl]
        · rw [ihiff]
          constructor
          · intro hand
            exact absurd hand.1 hpara.1
          · intro hand
            exact absurd hand.2 (by simp)
      · have hgc : GoodPara cur := hcur.resolve_left hc
        obtain ⟨hgood2, hstrip⟩ := goodPara_append cur para hgc hpara
        rw [hstrip]
        obtain ⟨iheq, ihiff⟩ := ih hgood' (cur ++ nn ++ para) count (Or.inr hgood2)
        constructor
        · rw [iheq, joinCur_append cur para rest hc]
        · rw [ihiff]
          constructor
          · intro hand
            exact absurd hand.1 hgood2.1
          · intro hand
            exact absurd hand.1 hc

theorem flatMap_push (chapters : List Chapter) (current : Option Chapter) :
    ((match current with
      | some c => chapters ++ [c]
      | none => chapters).flatMap (fun c => c.pageNums))
      = chapters.flatMap (fun c => c.pageNums) ++ curPn current := by
  cases current with
  | none => simp [curPn]
  | some c => simp [curPn]

theorem buildChaptersGo_nodup :
    ∀ (entries : List TocEntry) (chapters : List Chapter)
      (current : Option Chapter) (processed : List Int),
      (chapters.flatMap (fun c => c.pageNums) ++ curPn current).Nodup →
      (∀ x ∈ chapters.flatMap (fun c => c.pageNums) ++ curPn current,
        x ∈ processed) →
      ((buildChaptersGo entries chapters current processed).flatMap
        (fun c => c.pageNums)).Nodup := by
  intro entries
  induction entries with
  | nil =>
    intro chapters current processed hnd _
    show ((match current with
      | some c => chapters ++ [c]
      | none => chapters).flatMap (fun c => c.pageNums)).Nodup
    rw [flatMap_push]
    exact hnd
  | cons e rest ih =>
    intro chapters current processed hnd hsub
    simp only [buildChaptersGo]
    by_cases hl : e.level = 1
    · rw [if_pos hl]
      by_cases hpg : e.pageNum ∈ processed
      · rw [if_pos hpg]
        refine ih _ _ _ ?_ ?_
        · rw [flatMap_push]
          simpa [curPn] using hnd
        · intro x hx
          rw [flatMap_push] at hx
          refine hsub x ?_
          simpa [curPn] using hx
      · rw [if_neg hpg]
        refine ih _ _ _ ?_ ?_
        · rw [flatMap_push]
          have hnotin : e.pageNum ∉
              chapters.flatMap (fun c => c.pageNums) ++ curPn current :=
            fun hmem => hpg (hsub _ hmem)
          rw [List.nodup_append]
          refine ⟨by simpa [curPn] using hnd, by simp [curPn], ?_⟩
          intro a ha hb
          simp only [curPn, List.mem_singleton] at hb
          subst hb
          exact hnotin ha
        · intro x hx
          rw [flatMap_push] at hx
          simp only [curPn] at hx
          rcases List.mem_append.mp hx with h | h
          · exact List.mem_cons_of_mem _ (hsub x (by simpa [curPn] using h))
          · rw [List.mem_singleton] at h
            subst h
            exact List.mem_cons_self _ _
    · rw [if_neg hl]
      cases current with
      | none =>
        exact ih chapters none processed (by simpa [curPn] using hnd)
          (fun x hx => hsub x (by simpa [curPn] using hx))
      | some c =>
        show ((buildChaptersGo rest chapters
          (some (sectionAppend e c processed).1)
          (sectionAppend e c processed).2).flatMap (fun ch => ch.pageNums)).Nodup
        by_cases hpg : e.pageNum ∈ processed
        · rw [sectionAppend, if_pos hpg]
          exact ih chapters _ processed (by simpa [curPn] using hnd)
            (fun x hx => hsub x (by simpa [curPn] using hx))
        · rw [sectionAppend, if_neg hpg]
          refine ih chapters _ (e.pageNum :: processed) ?_ ?_
          · simp only [curPn]
            have hre : chapters.flatMap (fun c => c.pageNums) ++
                (c.pageNums ++ [e.pageNum]) =
                (chapters.flatMap (fun c => c.pageNums) ++ c.pageNums)
                  ++ [e.pageNum] := by
              rw [List.append_assoc]
            rw [hre, List.nodup_append]
            have hnotin : e.pageNum ∉
                chapters.flatMap (fun c => c.pageNums) ++ c.pageNums :=
              fun hmem => hpg (hsub _ (by simpa [curPn] using hmem))
            refine ⟨by simpa [curPn] using hnd, by simp, ?_⟩
            intro a ha hb
            rw [List.mem_singleton] at hb
            subst hb
            exact hnotin ha
          · intro x hx
            simp only [curPn] at hx
            rcases List.mem_append.mp hx with h | h
            · exact List.mem_cons_of_mem _
                (hsub x (List.mem_append.mpr (Or.inl h)))
            · rcases List.mem_append.mp h with h2 | h2
              · exact List.mem_cons_of_mem _
                  (hsub x (List.mem_append.mpr (Or.inr h2)))
              · rw [List.mem_singleton] at h2
                subst h2
                exact List.mem_cons_self _ _

/-- C5 (amended): on the HTML path, when every paragraph is non-empty and
free of leading/trailing whitespace, rejoining the emitted chunks with the
dropped `"\n\n"` separators recovers the source text exactly (plain
concatenation loses the separators at chunk boundaries); and in the
TOC-based split every page number's text is attributed to at most one
chapter (pages absent from the TOC, or listed only under a section that
precedes every level-1 entry, are attributed to none). -/
theorem c5_chunk_reconstruction_amended :
    (∀ (content : Text) (ms : Nat) (title : Text),
      (∀ p ∈ splitOnSep nn content, GoodPara p) →
      List.intercalate nn
        ((split_content_by_type content (txt "HTML") ms title none).map
          (fun ch => ch.content)) = content) ∧
    (∀ toc : List TocEntry,
      ((build_chapters toc).flatMap (fun c => c.pageNums)).Nodup) := by
  constructor
  · intro content ms title hgood
    rw [split_content_by_type, if_neg (by simp [txt]), if_neg (by simp [txt]),
      if_pos rfl]
    obtain ⟨heq, _⟩ := accumGo_reconstruct (fun _ => title) ms
      (splitOnSep nn content) hgood [] 1 (Or.inl rfl)
    rw [heq, joinCur, if_pos rfl]
    exact intercalate_splitOnSep '\n' (txt "\n") content.length content (le_refl _)
  · intro toc
    exact buildChaptersGo_nodup toc [] none [] (by simp [curPn]) (by simp [curPn])

/-- C5 (counterexample): with `max_size = 2` the HTML content `"aa\n\nbb"`
splits into chunks `"aa"` and `"bb"`; concatenating them in emitted order
yields `"aabb"`, not the source text — the separator is omitted.  And a
PDF whose TOC has a single level-2 entry for page 0 produces no chunks at
all, so that page's text is attributed to zero chunks, not exactly one. -/
theorem c5_chunk_reconstruction_counterexample :
    split_content_by_type (txt "aa\n\nbb") (txt "HTML") 2 (txt "t") none =
      [⟨txt "t", txt "aa"⟩, ⟨txt "t", txt "bb"⟩] ∧
    ((split_content_by_type (txt "aa\n\nbb") (txt "HTML") 2 (txt "t") none).map
      (fun ch => ch.content)).flatten = txt "aabb" ∧
    ((txt "aabb") == (txt "aa\n\nbb")) = false ∧
    build_chapters [⟨2, txt "s", 0, txt "page0"⟩] = [] ∧
    split_content_by_type (txt "0123456789") (txt "PDF") 4 (txt "t")
      (some [⟨2, txt "s", 0, txt "page0"⟩]) = [] := by
  refine ⟨by decide, by decide, by decide, by decide, by decide⟩

/-- C5 (witness): the amended reconstruction applied to the concrete HTML
content `"xy\n\nzw"` with `max_size = 3`. -/
theorem c5_chunk_reconstruction_amended_witness :
    List.intercalate nn
      ((split_content_by_type (txt "xy\n\nzw") (txt "HTML") 3 (txt "t") none).map
        (fun ch => ch.content)) = txt "xy\n\nzw" :=
  c5_chunk_reconstruction_amended.1 (txt "xy\n\nzw") 3 (txt "t") (by decide)
